import Mathlib

/-!
Verification of the rustsynth dataflow audio host against its specification.

The definitions below are shallow embeddings of the Rust source:

* `constants.rs`: `BUFFER_LEN`, `SAMPLE_RATE`.
* `modules.rs` (`Op`): `opDefault`, `opInit`, `opCombine`, `opFillBuffers`.
* `midi.rs` (`MidiInput::fill_buffers`): `eventIndex`, `midiPlace`, `midiFill`.
* `midi.rs` (`MidiPoly::fill_buffers`): `polyStep`, `polyFill`.
* `output.rs` (`AudioOutput`): `AudioSt`, `audioWrite`, `audioRead`, `readN`.
* `host.rs` (graph store): `Host`, `setBufferIn`, `link`, `linkValue`,
  `linkGroupRun`, `createVariadicModule`, `getLinkedPorts`.
* `host.rs` (scheduler): `SchedNode`, `processModule`, `processPass`.

Machine floating point values that are only moved, compared for definedness,
or combined with exact identities (0.0, 1.0) are modelled as rationals; MIDI
wall-clock `Instant`s are modelled as rational numbers of seconds.
-/

namespace Rustsynth

/-- Source `constants.rs`: `pub const BUFFER_LEN: usize = 512;`. -/
def BUFFER_LEN : Nat := 512

/-- Source `constants.rs`: `pub const SAMPLE_RATE: u32 = 44100;`. -/
def SAMPLE_RATE : Nat := 44100

/-! ### The `Op` module (`modules.rs`) -/

/-- Source `modules.rs`: `pub enum OpType { Add, Multiply, Negate }`. -/
inductive OpType where
  | add
  | multiply
  | negate
deriving DecidableEq

/-- Source `modules.rs`, `Op::init`: the default value handed to
`with_variadic_buf_in_default` is `1.0` for `Multiply` and `0.0` otherwise;
an unlinked variadic slot holds a constant block of this value. -/
def opDefault : OpType → ℚ
  | OpType.multiply => 1
  | _ => 0

/-- Source `modules.rs`, `Op::fill_buffers`: the value each output sample is
initialised to before folding the input blocks in (`1.0` for `Multiply`,
`0.0` for `Add` and `Negate`). -/
def opInit : OpType → ℚ
  | OpType.multiply => 1
  | _ => 0

/-- Source `modules.rs`, `Op::fill_buffers`: the per-sample accumulation,
`*val_out += val_in` / `*val_out *= val_in` / `*val_out -= val_in`. -/
def opCombine : OpType → ℚ → ℚ → ℚ
  | OpType.add, o, i => o + i
  | OpType.multiply, o, i => o * i
  | OpType.negate, o, i => o - i

/-- Source `modules.rs`, `Op::fill_buffers`: initialise the output block, then
fold every variadic input block in element-wise (the Rust `zip` of the two
iterators is `List.zipWith`). -/
def opFillBuffers (op : OpType) (inputs : List (List ℚ)) : List ℚ :=
  inputs.foldl (fun out bufIn => List.zipWith (opCombine op) out bufIn)
    (List.replicate BUFFER_LEN (opInit op))

lemma zipWith_mul_replicate_one (acc : List ℚ) :
    ∀ n, acc.length ≤ n → List.zipWith (opCombine OpType.multiply) acc (List.replicate n 1) = acc := by
  induction acc with
  | nil => intro n _; simp
  | cons a as ih =>
      intro n hn
      cases n with
      | zero => simp at hn
      | succ m =>
          simp only [List.replicate_succ, List.zipWith_cons_cons]
          rw [ih m (by simpa using hn)]
          simp [opCombine]

lemma length_zipWith_le (f : ℚ → ℚ → ℚ) (a b : List ℚ) :
    (List.zipWith f a b).length ≤ a.length := by
  rw [List.length_zipWith]; omega

lemma opFill_foldl_filter (l : List (List ℚ)) :
    ∀ acc : List ℚ, acc.length ≤ BUFFER_LEN →
      List.foldl (fun out bufIn => List.zipWith (opCombine OpType.multiply) out bufIn) acc
        (l.filter (fun b => decide (b ≠ List.replicate BUFFER_LEN (1 : ℚ)))) =
      List.foldl (fun out bufIn => List.zipWith (opCombine OpType.multiply) out bufIn) acc l := by
  induction l with
  | nil => intro acc _; rfl
  | cons b rest ih =>
      intro acc hacc
      by_cases hb : b = List.replicate BUFFER_LEN (1 : ℚ)
      · subst hb
        simp only [List.filter_cons, decide_not, decide_True, Bool.not_true, ne_eq,
          decide_eq_true_eq, not_true_eq_false, List.foldl_cons, if_false,
          Bool.false_eq_true]
        rw [zipWith_mul_replicate_one acc BUFFER_LEN hacc]
        simpa using ih acc hacc
      · rw [List.filter_cons_of_pos (by simpa using hb), List.foldl_cons, List.foldl_cons]
        exact ih (List.zipWith (opCombine OpType.multiply) acc b)
          (le_trans (length_zipWith_le _ acc b) hacc)

/-- C10: an `Op` module built with `OpType::Multiply` gives every unlinked
variadic `in` slot a constant block of `1.0` (while `Add` and `Negate` use
`0.0`), and `1.0` is the identity of the `Multiply` accumulation: the output
block computed with the all-default blocks removed from the input list equals
the output block computed with them present, for every input assignment. -/
theorem op_multiply_unlinked_identity :
    opDefault OpType.multiply = 1 ∧ opDefault OpType.add = 0 ∧ opDefault OpType.negate = 0 ∧
    ∀ inputs : List (List ℚ),
      opFillBuffers OpType.multiply
        (inputs.filter (fun b => decide (b ≠ List.replicate BUFFER_LEN (opDefault OpType.multiply)))) =
      opFillBuffers OpType.multiply inputs := by
  refine ⟨rfl, rfl, rfl, ?_⟩
  intro inputs
  unfold opFillBuffers
  have : opDefault OpType.multiply = (1 : ℚ) := rfl
  rw [this]
  exact opFill_foldl_filter inputs _ (by simp [opInit])

/-! ### The `MidiInput` module (`midi.rs`) -/

/-- Source `midi.rs`: `struct RawEvent { time_received: Instant, message: Box<[u8]> }`.
The wall-clock `Instant` is modelled as rational seconds since an arbitrary
epoch; `MLiveEvent::parse(..).unwrap().into()` is modelled by carrying the
already-parsed message value of an abstract type `μ`. -/
structure RawEvent (μ : Type) where
  timeReceived : ℚ
  message : μ
deriving DecidableEq

/-- Source `midi.rs`, `MidiInput::fill_buffers`: the sample index of a staged
event. `checked_duration_since` yields `0.0` when the arrival predates
`start_time`, and `usize::max(0, (elapsed * SAMPLE_RATE as f32) as usize)`
truncates the nonnegative product, which is its floor. -/
def eventIndex {μ : Type} (startTime : ℚ) (e : RawEvent μ) : Nat :=
  (⌊(max 0 (e.timeReceived - startTime)) * (SAMPLE_RATE : ℚ)⌋).toNat

/-- Source `midi.rs`, `MidiInput::fill_buffers`: walk the staged queue in
order; an event with index below `BUFFER_LEN` is pushed onto the buffer's
list at that index; the first event at or beyond `BUFFER_LEN` sets the drain
cutoff, so it and everything after it stays staged. -/
def midiPlace {μ : Type} (startTime : ℚ) :
    List (List μ) → List (RawEvent μ) → List (List μ) × List (RawEvent μ)
  | buffer, [] => (buffer, [])
  | buffer, e :: rest =>
      if BUFFER_LEN ≤ eventIndex startTime e then (buffer, e :: rest)
      else
        midiPlace startTime
          (buffer.set (eventIndex startTime e)
            ((buffer.getD (eventIndex startTime e) []) ++ [e.message])) rest

/-- Source `midi.rs`, `MidiInput::fill_buffers`: all `BUFFER_LEN` per-sample
lists of the output block are cleared (`vec.clear()`) before the staged queue
is drained into the block. -/
def midiFill {μ : Type} (startTime : ℚ) (prev : List (List μ))
    (queue : List (RawEvent μ)) : List (List μ) × List (RawEvent μ) :=
  midiPlace startTime (prev.map (fun _ => ([] : List μ))) queue

/-- One placement step of `midiPlace`, used to restate it as a fold. -/
def placeOne {μ : Type} (startTime : ℚ) (buffer : List (List μ))
    (e : RawEvent μ) : List (List μ) :=
  buffer.set (eventIndex startTime e)
    ((buffer.getD (eventIndex startTime e) []) ++ [e.message])

lemma midiPlace_eq_foldl {μ : Type} (startTime : ℚ) :
    ∀ (queue : List (RawEvent μ)) (buffer : List (List μ)),
      midiPlace startTime buffer queue =
        (List.foldl (placeOne startTime) buffer
          (queue.takeWhile (fun e => decide (eventIndex startTime e < BUFFER_LEN))),
         queue.dropWhile (fun e => decide (eventIndex startTime e < BUFFER_LEN))) := by
  intro queue
  induction queue with
  | nil => intro buffer; simp [midiPlace]
  | cons e rest ih =>
      intro buffer
      by_cases h : BUFFER_LEN ≤ eventIndex startTime e
      · rw [midiPlace]
        simp only [h, if_true]
        rw [List.takeWhile_cons, List.dropWhile_cons]
        simp [decide_eq_false (by omega : ¬ eventIndex startTime e < BUFFER_LEN)]
      · rw [midiPlace]
        simp only [h, if_false]
        rw [List.takeWhile_cons, List.dropWhile_cons]
        simp only [decide_eq_true (by omega : eventIndex startTime e < BUFFER_LEN),
          if_true, List.foldl_cons]
        exact ih _

lemma getD_set_self {β : Type} :
    ∀ (l : List β) (i : Nat), i < l.length → ∀ (v d : β), (l.set i v).getD i d = v := by
  intro l
  induction l with
  | nil => intro i h; simp at h
  | cons a as ih =>
      intro i h v d
      cases i with
      | zero => rfl
      | succ j => exact ih j (by simpa using h) v d

lemma getD_set_ne {β : Type} :
    ∀ (l : List β) (i j : Nat), i ≠ j → ∀ (v d : β), (l.set i v).getD j d = l.getD j d := by
  intro l
  induction l with
  | nil => intro i j _ v d; simp [List.set]
  | cons a as ih =>
      intro i j hij v d
      cases i with
      | zero =>
          cases j with
          | zero => exact absurd rfl hij
          | succ j' => rfl
      | succ i' =>
          cases j with
          | zero => rfl
          | succ j' => exact ih i' j' (by omega) v d

lemma foldl_placeOne_cell {μ : Type} (startTime : ℚ) :
    ∀ (l : List (RawEvent μ)) (buffer : List (List μ)),
      buffer.length = BUFFER_LEN →
      (∀ e ∈ l, eventIndex startTime e < BUFFER_LEN) →
      ∀ j : Nat,
        (List.foldl (placeOne startTime) buffer l).getD j [] =
          buffer.getD j [] ++
            (l.filter (fun e => decide (eventIndex startTime e = j))).map RawEvent.message := by
  intro l
  induction l with
  | nil => intro buffer _ _ j; simp
  | cons e rest ih =>
      intro buffer hlen hidx j
      have hie : eventIndex startTime e < BUFFER_LEN := hidx e (by simp)
      have hlen' : (placeOne startTime buffer e).length = BUFFER_LEN := by
        simpa [placeOne] using hlen
      have hrest : ∀ x ∈ rest, eventIndex startTime x < BUFFER_LEN := by
        intro x hx; exact hidx x (by simp [hx])
      rw [List.foldl_cons, ih (placeOne startTime buffer e) hlen' hrest j,
        List.filter_cons]
      by_cases hj : eventIndex startTime e = j
      · subst hj
        rw [decide_eq_true rfl]
        simp only [List.map_cons]
        rw [placeOne, getD_set_self buffer _ (by omega)]
        simp
      · rw [decide_eq_false hj]
        simp only [Bool.false_eq_true, if_false]
        rw [placeOne, getD_set_ne buffer _ j hj]

lemma getD_map_const_nil {μ β : Type} :
    ∀ (l : List β) (j : Nat), (l.map (fun _ => ([] : List μ))).getD j [] = [] := by
  intro l
  induction l with
  | nil => intro j; simp
  | cons a as ih =>
      intro j
      cases j with
      | zero => rfl
      | succ j' => exact ih j'

lemma eventIndex_mono {μ : Type} (startTime : ℚ) (a b : RawEvent μ)
    (h : a.timeReceived ≤ b.timeReceived) :
    eventIndex startTime a ≤ eventIndex startTime b := by
  unfold eventIndex
  have h1 : max 0 (a.timeReceived - startTime) ≤ max 0 (b.timeReceived - startTime) := by
    exact max_le_max le_rfl (by linarith)
  have h2 : max 0 (a.timeReceived - startTime) * (SAMPLE_RATE : ℚ) ≤
      max 0 (b.timeReceived - startTime) * (SAMPLE_RATE : ℚ) := by
    apply mul_le_mul_of_nonneg_right h1
    norm_num [SAMPLE_RATE]
  exact Int.toNat_le_toNat (Int.floor_le_floor h2)

lemma dropWhile_all_late {μ : Type} (startTime : ℚ) :
    ∀ queue : List (RawEvent μ),
      queue.Pairwise (fun a b => a.timeReceived ≤ b.timeReceived) →
      ∀ e ∈ queue.dropWhile (fun e => decide (eventIndex startTime e < BUFFER_LEN)),
        BUFFER_LEN ≤ eventIndex startTime e := by
  intro queue
  induction queue with
  | nil => intro _ e he; simp at he
  | cons a rest ih =>
      intro hpw e he
      rw [List.dropWhile_cons] at he
      by_cases ha : eventIndex startTime a < BUFFER_LEN
      · rw [decide_eq_true ha] at he
        simp only [if_true] at he
        exact ih (List.Pairwise.sublist (List.sublist_cons_self a rest) hpw) e he
      · rw [decide_eq_false ha] at he
        simp only [Bool.false_eq_true, if_false, List.mem_cons] at he
        rcases he with rfl | he
        · omega
        · have hle : a.timeReceived ≤ e.timeReceived :=
            (List.pairwise_cons.mp hpw).1 e he
          have := eventIndex_mono startTime a e hle
          omega

/-- C5: one `MidiInput::fill_buffers` call over a staged queue whose events
are in arrival order (nondecreasing arrival times): every staged event before
the cutoff is appended exactly once, at its computed sample index, in queue
order (cell `j` of the block is exactly the staged events of index `j`, in
order); the suffix from the first event whose index reaches `BUFFER_LEN`
stays staged in its original order; and all `BUFFER_LEN` per-sample lists are
cleared first, so the result does not depend on the previous block contents. -/
theorem midi_input_partition {μ : Type} (startTime : ℚ) (prev : List (List μ))
    (queue : List (RawEvent μ))
    (hprev : prev.length = BUFFER_LEN)
    (hmono : queue.Pairwise (fun a b => a.timeReceived ≤ b.timeReceived)) :
    (midiFill startTime prev queue).snd =
      queue.dropWhile (fun e => decide (eventIndex startTime e < BUFFER_LEN)) ∧
    (∀ e ∈ (midiFill startTime prev queue).snd, BUFFER_LEN ≤ eventIndex startTime e) ∧
    (midiFill startTime prev queue).fst.length = BUFFER_LEN ∧
    ∀ j : Nat,
      (midiFill startTime prev queue).fst.getD j [] =
        (queue.filter (fun e => decide (eventIndex startTime e = j ∧ j < BUFFER_LEN))).map
          RawEvent.message := by
  have hcleared : (prev.map (fun _ => ([] : List μ))).length = BUFFER_LEN := by
    simpa using hprev
  have hfold := midiPlace_eq_foldl startTime queue (prev.map (fun _ => ([] : List μ)))
  have hsnd : (midiFill startTime prev queue).snd =
      queue.dropWhile (fun e => decide (eventIndex startTime e < BUFFER_LEN)) := by
    rw [midiFill, hfold]
  refine ⟨hsnd, ?_, ?_, ?_⟩
  · rw [hsnd]; exact dropWhile_all_late startTime queue hmono
  · rw [midiFill, hfold]
    have : ∀ (l : List (RawEvent μ)) (b : List (List μ)),
        (List.foldl (placeOne startTime) b l).length = b.length := by
      intro l
      induction l with
      | nil => intro b; rfl
      | cons e rest ih => intro b; rw [List.foldl_cons, ih]; simp [placeOne]
    rw [this, hcleared]
  · intro j
    rw [midiFill, hfold]
    have htw : ∀ e ∈ queue.takeWhile (fun e => decide (eventIndex startTime e < BUFFER_LEN)),
        eventIndex startTime e < BUFFER_LEN := by
      intro e he
      have := List.mem_takeWhile_imp he
      simpa using this
    rw [foldl_placeOne_cell startTime _ _ hcleared htw j]
    rw [getD_map_const_nil prev j, List.nil_append]
    by_cases hjN : j < BUFFER_LEN
    · congr 1
      conv_rhs => rw [← List.takeWhile_append_dropWhile
        (p := fun e => decide (eventIndex startTime e < BUFFER_LEN)) (l := queue)]
      rw [List.filter_append]
      have hdrop : (queue.dropWhile (fun e => decide (eventIndex startTime e < BUFFER_LEN))).filter
          (fun e => decide (eventIndex startTime e = j ∧ j < BUFFER_LEN)) = [] := by
        rw [List.filter_eq_nil_iff]
        intro e he
        have := dropWhile_all_late startTime queue hmono e he
        simp only [decide_eq_true_eq, not_and]
        intro hej
        omega
      rw [hdrop, List.append_nil]
      apply List.filter_congr
      intro e he
      have h1 := htw e he
      simp only [decide_eq_decide]
      constructor
      · intro hx; exact ⟨hx, hjN⟩
      · intro hx; exact hx.1
    · have hfil : queue.filter (fun e => decide (eventIndex startTime e = j ∧ j < BUFFER_LEN)) = [] := by
        rw [List.filter_eq_nil_iff]
        intro e _
        simp only [decide_eq_true_eq, not_and]
        intro _
        omega
      rw [hfil]
      have : ∀ e ∈ queue.takeWhile (fun e => decide (eventIndex startTime e < BUFFER_LEN)),
          ¬ (eventIndex startTime e = j) := by
        intro e he hej
        have := htw e he
        omega
      rw [List.filter_eq_nil_iff.mpr (by intro e he; simpa using this e he)]

/-- Witness for C5: a concrete three-event queue (indices 0, 441 and 44100)
over the cleared block; the last event stays staged. -/
theorem midi_input_partition_witness :
    ((List.replicate BUFFER_LEN ([] : List Nat)).length = BUFFER_LEN) ∧
    (midiFill 0 (List.replicate BUFFER_LEN ([] : List Nat))
        [⟨0, 10⟩, ⟨1/100, 20⟩, ⟨1, 30⟩]).snd =
      ([⟨0, 10⟩, ⟨1/100, 20⟩, ⟨1, 30⟩] : List (RawEvent Nat)).dropWhile
        (fun e => decide (eventIndex 0 e < BUFFER_LEN)) := by
  refine ⟨by simp, ?_⟩
  exact (midi_input_partition 0 (List.replicate BUFFER_LEN ([] : List Nat))
    [⟨0, 10⟩, ⟨1/100, 20⟩, ⟨1, 30⟩] (by simp) (by
      refine List.pairwise_cons.mpr ⟨?_, List.pairwise_cons.mpr ⟨?_, ?_⟩⟩ <;> norm_num)).1

/-! ### The `MidiPoly` module (`midi.rs`) -/

/-- Source `midly::MidiMessage`, restricted to the constructors `MidiPoly`
matches on (`NoteOn`, `NoteOff`, and a catch-all for every other message). -/
inductive MidiMsg where
  | noteOn (key : Nat) (vel : Nat)
  | noteOff (key : Nat) (vel : Nat)
  | other (code : Nat)
deriving DecidableEq

/-- Source `midi.rs`: `MidiEvent`, with the `Midi` constructor carrying a
channel and message and one abstract constructor for the `Common`/`Realtime`
events that `MidiPoly` ignores. -/
inductive MEvent where
  | midi (channel : Nat) (message : MidiMsg)
  | system (code : Nat)
deriving DecidableEq

/-- Source `midi.rs`: the mutable state of `MidiPoly`: the fixed voice count
`num_ports`, the most-recent-first list of sounding `(note, note-on event)`
pairs, and the permutation `midi_out` of output-port indices in
most-recently-used-first order (initially `0, 1, ..., K-1`, the order the
variadic handles are laid out in). -/
structure MidiPoly where
  numPorts : Nat
  notes : List (Nat × MEvent)
  midiOut : List Nat
deriving DecidableEq

/-- Push event `e` onto output port `port` at sample slot `slot`
(`buffers_out.get(buf)[i].push(e)`). -/
def pushAt (outputs : List (List (List MEvent))) (port slot : Nat) (e : MEvent) :
    List (List (List MEvent)) :=
  outputs.set port ((outputs.getD port []).set slot
    (((outputs.getD port []).getD slot []) ++ [e]))

/-- Source `midi.rs`, `MidiPoly::fill_buffers`, body of the per-event loop at
sample slot `slot`: `NoteOn` routes a new note to the least-recently-used
port (stealing when all voices are busy) and records it most-recent-first;
`NoteOff` removes a sounding note, rotates the freed port to
least-recently-used, and re-emits on it the `(K+1)`-th most-recent held
note's note-on (or the note-off itself when none); every other MIDI message
is broadcast to all ports; non-`Midi` events are ignored. -/
def polyEvent (slot : Nat) :
    MidiPoly × List (List (List MEvent)) → MEvent → MidiPoly × List (List (List MEvent))
  | (st, outputs), MEvent.midi ch msg =>
      match msg with
      | MidiMsg.noteOn key vel =>
          if st.notes.all (fun p => decide (p.1 ≠ key)) then
            let pos := min st.notes.length (st.numPorts - 1)
            let freeBuf := st.midiOut.getD pos 0
            (⟨st.numPorts,
              (key, MEvent.midi ch (MidiMsg.noteOn key vel)) :: st.notes,
              freeBuf :: st.midiOut.eraseIdx pos⟩,
             pushAt outputs freeBuf slot (MEvent.midi ch (MidiMsg.noteOn key vel)))
          else (st, outputs)
      | MidiMsg.noteOff key vel =>
          match st.notes.findIdx? (fun p => decide (p.1 = key)) with
          | some idx =>
              let notes' := st.notes.eraseIdx idx
              if idx < st.numPorts then
                let oldBuf := st.midiOut.getD idx 0
                let pushed := match notes'.get? (st.numPorts - 1) with
                  | some p => p.2
                  | none => MEvent.midi ch (MidiMsg.noteOff key vel)
                (⟨st.numPorts, notes', st.midiOut.eraseIdx idx ++ [oldBuf]⟩,
                 pushAt outputs oldBuf slot pushed)
              else (⟨st.numPorts, notes', st.midiOut⟩, outputs)
          | none => (st, outputs)
      | MidiMsg.other c =>
          (st, (List.range st.numPorts).foldl
            (fun acc port => pushAt acc port slot (MEvent.midi ch (MidiMsg.other c)))
            outputs)
  | (st, outputs), MEvent.system _ => (st, outputs)

/-- Source `midi.rs`, `MidiPoly::fill_buffers`: return unchanged when
`num_ports == 0` (there are then no output ports at all); otherwise clear
every per-sample list of every output port and process the input slots in
order, each slot's events in order. -/
def polyFill (st : MidiPoly) (input : List (List MEvent)) :
    MidiPoly × List (List (List MEvent)) :=
  if st.numPorts = 0 then (st, [])
  else
    input.enum.foldl
      (fun acc p => p.2.foldl (fun acc2 e => polyEvent p.1 acc2 e) acc)
      (st, List.replicate st.numPorts (List.replicate BUFFER_LEN ([] : List MEvent)))

/-- The initial `MidiPoly` state for `K = 2` voices (`notes` empty, ports in
handle order). -/
def polyInit2 : MidiPoly := ⟨2, [], [0, 1]⟩

/-- The `NoteOn`/`NoteOff` events of the C9 scenario. -/
def evOn (k : Nat) : MEvent := MEvent.midi 0 (MidiMsg.noteOn k 100)

/-- The `NoteOff` event of the C9 scenario. -/
def evOff (k : Nat) : MEvent := MEvent.midi 0 (MidiMsg.noteOff k 0)

/-- The first input block of the C9 scenario: NoteOn(60), NoteOn(62),
NoteOn(64) at sample slots 0, 1, 2 of one block of `BUFFER_LEN` slots. -/
def polyBlock1 : List (List MEvent) :=
  [[evOn 60], [evOn 62], [evOn 64]] ++ List.replicate (BUFFER_LEN - 3) []

/-- The second input block of the C9 scenario: NoteOff(62) at slot 0. -/
def polyBlock2 : List (List MEvent) :=
  [[evOff 62]] ++ List.replicate (BUFFER_LEN - 1) []

set_option maxRecDepth 4096

/-- C9 counterexample: in the K = 2 scenario NoteOn(60), NoteOn(62),
NoteOn(64) then NoteOff(62), the resurrected note-on of the evicted note 60
is emitted on output voice-port 1 (the port freed by note 62) and voice-port
0's block stays entirely empty, so the claim that it appears on voice-port 0
is false. -/
theorem midi_poly_steal_counterexample :
    ((polyFill (polyFill polyInit2 polyBlock1).fst polyBlock2).snd.getD 0 [] =
        List.replicate BUFFER_LEN []) ∧
    ((polyFill (polyFill polyInit2 polyBlock1).fst polyBlock2).snd.getD 1 []).getD 0 [] =
        [evOn 60] := by
  constructor <;> decide

/-- C9 amended: after NoteOn(60), NoteOn(62), NoteOn(64) on K = 2 voices the
held-note list is 64, 62, 60 most-recent-first (the two active voices hold
64 on port 0 and 62 on port 1, note 60 evicted), and a subsequent
NoteOff(62) re-emits the note-on of the evicted held note 60 on the freed
voice port, which is output port 1. -/
theorem midi_poly_steal :
    ((polyFill polyInit2 polyBlock1).fst.notes.map Prod.fst = [64, 62, 60]) ∧
    (((polyFill polyInit2 polyBlock1).snd.getD 0 []).getD 2 [] = [evOn 64]) ∧
    (((polyFill polyInit2 polyBlock1).snd.getD 1 []).getD 1 [] = [evOn 62]) ∧
    ((polyFill (polyFill polyInit2 polyBlock1).fst polyBlock2).fst.notes.map Prod.fst =
        [64, 60]) ∧
    (((polyFill (polyFill polyInit2 polyBlock1).fst polyBlock2).snd.getD 1 []).getD 0 [] =
        [evOn 60]) := by
  refine ⟨?_, ?_, ?_, ?_, ?_⟩ <;> decide

/-! ### The `AudioOutput` double buffer (`output.rs`)

The protected state and the two buffers are modelled as one record and the
mutex-protected writer body and reader body as atomic transitions. Samples
are an arbitrary type `α` (the machine only copies them); `z` stands for the
literal `0.0` an underrun returns. -/

/-- Source `output.rs`: `enum DoubleBufferName { BufferA, BufferB }`. -/
inductive DBName where
  | a
  | b
deriving DecidableEq

/-- Source `output.rs`: `DoubleBufferName::next`. -/
def DBName.next : DBName → DBName
  | DBName.a => DBName.b
  | DBName.b => DBName.a

/-- Source `output.rs`: `AudioOutputState` plus the two buffers (`[f32; BUFFER_LEN]`
modelled as index functions, only whole-buffer overwrites and point reads occur). -/
structure AudioSt (α : Type) where
  index : Nat
  nowReading : DBName
  canWrite : Bool
  outOfSamples : Bool
  bufferA : Nat → α
  bufferB : Nat → α

/-- Source `output.rs`: `AudioOutput::get_buffer`. -/
def AudioSt.getBuffer {α : Type} (st : AudioSt α) : DBName → (Nat → α)
  | DBName.a => st.bufferA
  | DBName.b => st.bufferB

/-- Source `output.rs`, `AudioOutput::new`: index 0, reading buffer B,
writable, out of samples, both buffers zeroed. -/
def audioInit {α : Type} (z : α) : AudioSt α :=
  ⟨0, DBName.b, true, true, fun _ => z, fun _ => z⟩

/-- Source `output.rs`, `AudioOutput::write`, the body after the condition
variable wait (so it runs in a state with `can_write`): clear
`out_of_samples`, clear `can_write`, and overwrite the buffer not currently
being read. -/
def audioWrite {α : Type} (st : AudioSt α) (data : Nat → α) : AudioSt α :=
  match st.nowReading.next with
  | DBName.a => { st with outOfSamples := false, canWrite := false, bufferA := data }
  | DBName.b => { st with outOfSamples := false, canWrite := false, bufferB := data }

/-- Source `output.rs`, `<AudioOutput as Iterator>::next`: on underrun return
the zero sample and leave the state untouched; otherwise return the current
sample and advance; on wrapping past `BUFFER_LEN`, either flag an underrun
(no fresh block: `can_write` still set) or swap to the freshly written
buffer and release the writer. -/
def audioRead {α : Type} (z : α) (st : AudioSt α) : α × AudioSt α :=
  if st.outOfSamples then (z, st)
  else
    let out := st.getBuffer st.nowReading st.index
    let idx := st.index + 1
    if BUFFER_LEN ≤ idx then
      if st.canWrite then (out, { st with index := 0, outOfSamples := true })
      else (out, { st with index := 0, nowReading := st.nowReading.next, canWrite := true })
    else (out, { st with index := idx })

/-- The reader pulling `k` samples in a row; returns them in order. -/
def readN {α : Type} (z : α) : Nat → AudioSt α → List α × AudioSt α
  | 0, st => ([], st)
  | Nat.succ k, st =>
      ((audioRead z st).1 :: (readN z k (audioRead z st).2).1,
        (readN z k (audioRead z st).2).2)

/-- One writer/reader round of the keep-up schedule: the writer produces one
block (a constant stamp `v`), then the reader pulls a full block. -/
def roundStep {α : Type} (z : α) (acc : List α × AudioSt α) (v : α) :
    List α × AudioSt α :=
  (acc.1 ++ (readN z BUFFER_LEN (audioWrite acc.2 (fun _ => v))).1,
    (readN z BUFFER_LEN (audioWrite acc.2 (fun _ => v))).2)

/-- The keep-up schedule: alternate one write and one full block of reads,
once per stamp. -/
def keepUp {α : Type} (z : α) (st : AudioSt α) (vs : List α) :
    List α × AudioSt α :=
  vs.foldl (roundStep z) ([], st)

lemma audioWrite_fields {α : Type} (st : AudioSt α) (data : Nat → α) :
    (audioWrite st data).index = st.index ∧
    (audioWrite st data).nowReading = st.nowReading ∧
    (audioWrite st data).canWrite = false ∧
    (audioWrite st data).outOfSamples = false ∧
    (audioWrite st data).getBuffer st.nowReading = st.getBuffer st.nowReading ∧
    (audioWrite st data).getBuffer st.nowReading.next = data := by
  cases h : st.nowReading <;>
    simp [audioWrite, AudioSt.getBuffer, DBName.next, h]

lemma map_range_const {α : Type} (c : α) (n : Nat) :
    (List.range n).map (fun _ => c) = List.replicate n c := by
  induction n with
  | zero => rfl
  | succ n ih =>
      rw [List.range_succ, List.map_append, ih, List.map_singleton,
        ← List.replicate_succ']

lemma readRun {α : Type} (z : α) :
    ∀ (k : Nat) (st : AudioSt α) (i : Nat), st.outOfSamples = false → st.index = i →
      i + k = BUFFER_LEN → 1 ≤ k →
      readN z k st =
        ((List.range k).map (fun j => st.getBuffer st.nowReading (i + j)),
          if st.canWrite then
            ⟨0, st.nowReading, true, true, st.bufferA, st.bufferB⟩
          else
            ⟨0, st.nowReading.next, true, false, st.bufferA, st.bufferB⟩) := by
  intro k
  induction k with
  | zero => intro st i _ _ _ hk; omega
  | succ k ih =>
      rintro ⟨ix, nr, cw, oos, bA, bB⟩ i hoos hidx hsum _
      simp only at hoos hidx
      subst hoos hidx
      cases k with
      | zero =>
          have hwrap : BUFFER_LEN ≤ ix + 1 := by omega
          rw [readN]
          have hr : audioRead z (⟨ix, nr, cw, false, bA, bB⟩ : AudioSt α) =
              ((AudioSt.getBuffer ⟨ix, nr, cw, false, bA, bB⟩ nr) ix,
                if cw then (⟨0, nr, true, true, bA, bB⟩ : AudioSt α)
                else ⟨0, nr.next, true, false, bA, bB⟩) := by
            rw [audioRead]
            simp only [Bool.false_eq_true, if_false]
            rw [if_pos hwrap]
            cases cw <;> rfl
          rw [hr]
          dsimp only
          cases cw <;> rfl
      | succ k' =>
          have hnw : ¬ BUFFER_LEN ≤ ix + 1 := by omega
          rw [readN]
          have hr : audioRead z (⟨ix, nr, cw, false, bA, bB⟩ : AudioSt α) =
              ((AudioSt.getBuffer ⟨ix, nr, cw, false, bA, bB⟩ nr) ix,
                (⟨ix + 1, nr, cw, false, bA, bB⟩ : AudioSt α)) := by
            rw [audioRead]
            simp only [Bool.false_eq_true, if_false]
            rw [if_neg hnw]
          rw [hr]
          dsimp only
          have hstep := ih ⟨ix + 1, nr, cw, false, bA, bB⟩ (ix + 1) rfl rfl
            (by omega) (by omega)
          rw [hstep]
          refine congrArg₂ Prod.mk ?_ rfl
          conv_rhs => rw [List.range_succ_eq_map]
          rw [List.map_cons, List.map_map]
          refine congrArg₂ List.cons rfl ?_
          apply List.map_congr_left
          intro j _
          show AudioSt.getBuffer ⟨ix + 1, nr, cw, false, bA, bB⟩ nr (ix + 1 + j) =
            AudioSt.getBuffer ⟨ix, nr, cw, false, bA, bB⟩ nr (ix + (j + 1))
          have harith : ix + 1 + j = ix + (j + 1) := by omega
          rw [harith]
          cases nr <;> rfl

lemma readRun_steady {α : Type} (z c : α) (st : AudioSt α)
    (h0 : st.index = 0) (hcw : st.canWrite = true) (hoos : st.outOfSamples = false)
    (hbuf : st.getBuffer st.nowReading = fun _ => c) :
    readN z BUFFER_LEN st =
      (List.replicate BUFFER_LEN c,
        ⟨0, st.nowReading, true, true, st.bufferA, st.bufferB⟩) := by
  have h := readRun z BUFFER_LEN st 0 hoos h0 (by omega) (by norm_num [BUFFER_LEN])
  rw [h, if_pos hcw]
  refine congrArg₂ Prod.mk ?_ rfl
  have hc : ∀ j ∈ List.range BUFFER_LEN, st.getBuffer st.nowReading (0 + j) = c := by
    intro j _
    rw [hbuf]
  rw [List.map_congr_left hc, map_range_const]

lemma readRun_swap {α : Type} (z c : α) (st : AudioSt α)
    (h0 : st.index = 0) (hcw : st.canWrite = false) (hoos : st.outOfSamples = false)
    (hbuf : st.getBuffer st.nowReading = fun _ => c) :
    readN z BUFFER_LEN st =
      (List.replicate BUFFER_LEN c,
        ⟨0, st.nowReading.next, true, false, st.bufferA, st.bufferB⟩) := by
  have h := readRun z BUFFER_LEN st 0 hoos h0 (by omega) (by norm_num [BUFFER_LEN])
  rw [h, if_neg (by simp [hcw])]
  refine congrArg₂ Prod.mk ?_ rfl
  have hc : ∀ j ∈ List.range BUFFER_LEN, st.getBuffer st.nowReading (0 + j) = c := by
    intro j _
    rw [hbuf]
  rw [List.map_congr_left hc, map_range_const]

lemma readN_oos {α : Type} (z : α) :
    ∀ (m : Nat) (st : AudioSt α), st.outOfSamples = true →
      readN z m st = (List.replicate m z, st) := by
  intro m
  induction m with
  | zero => intro st _; rfl
  | succ m ih =>
      intro st hoos
      rw [readN, audioRead]
      simp only [hoos, if_true]
      rw [ih st hoos]
      rfl

/-- The reader is at the start of a buffer whose content is the constant
stamp `c` (the writer may or may not still owe a handoff). -/
def Ready {α : Type} (st : AudioSt α) (c : α) : Prop :=
  st.index = 0 ∧ st.getBuffer st.nowReading = fun _ => c

/-- A `Ready` state in which additionally the writer may write and no
underrun is pending: the steady state between keep-up rounds. -/
def Steady {α : Type} (st : AudioSt α) (c : α) : Prop :=
  st.index = 0 ∧ st.canWrite = true ∧ st.outOfSamples = false ∧
    st.getBuffer st.nowReading = fun _ => c

lemma roundStep_spec {α : Type} (z c v : α) (acc : List α) (st : AudioSt α)
    (h : Ready st c) :
    (roundStep z (acc, st) v).1 = acc ++ List.replicate BUFFER_LEN c ∧
    Steady (roundStep z (acc, st) v).2 v := by
  obtain ⟨h0, hbuf⟩ := h
  obtain ⟨w1, w2, w3, w4, w5, w6⟩ := audioWrite_fields st (fun _ => v)
  set stW := audioWrite st (fun _ => v) with hstW
  have hread := readRun_swap z c stW (by rw [w1, h0]) w3 w4 (by rw [w2, w5, hbuf])
  have : roundStep z (acc, st) v =
      (acc ++ List.replicate BUFFER_LEN c,
        ⟨0, stW.nowReading.next, true, false, stW.bufferA, stW.bufferB⟩) := by
    rw [roundStep]
    dsimp only
    rw [← hstW, hread]
  rw [this]
  refine ⟨rfl, rfl, rfl, rfl, ?_⟩
  show stW.getBuffer stW.nowReading.next = fun _ => v
  rw [w2]
  exact w6

lemma keepUp_go {α : Type} (z : α) :
    ∀ (vs : List α) (st : AudioSt α) (c : α) (acc : List α), Steady st c →
      (vs.foldl (roundStep z) (acc, st)).1 =
        acc ++ ((c :: vs).dropLast).flatMap (List.replicate BUFFER_LEN) ∧
      Steady (vs.foldl (roundStep z) (acc, st)).2 ((c :: vs).getLast (by simp)) := by
  intro vs
  induction vs with
  | nil =>
      intro st c acc h
      exact ⟨by simp, h⟩
  | cons v vs ih =>
      intro st c acc h
      obtain ⟨hout, hsteady⟩ := roundStep_spec z c v acc st ⟨h.1, h.2.2.2⟩
      rw [List.foldl_cons]
      have hrs : roundStep z (acc, st) v =
          ((roundStep z (acc, st) v).1, (roundStep z (acc, st) v).2) := Prod.mk.eta.symm
      rw [hrs, hout]
      obtain ⟨ih1, ih2⟩ := ih (roundStep z (acc, st) v).2 v
        (acc ++ List.replicate BUFFER_LEN c) hsteady
      refine ⟨?_, ?_⟩
      · rw [ih1]
        have : ((c :: v :: vs).dropLast) = c :: ((v :: vs).dropLast) := rfl
        rw [this, List.flatMap_cons, List.append_assoc]
      · have : ((c :: v :: vs).getLast (by simp)) = ((v :: vs).getLast (by simp)) := by
          rw [List.getLast_cons (by simp)]
        rw [this]
        exact ih2

/-- C4 counterexample: start the double buffer, write one block stamped 1,
let the reader drain everything (it reads the initial zero block, then block
1, then flags an underrun), then write a block stamped 2. The very next pull
after that write returns 1 — a sample of the block delivered before the
underrun, not of the freshly written block — and the whole next block reads
as stamp 1, so the reader does not resume with the next fully written block
as the claim states. -/
theorem audio_underrun_counterexample :
    ((readN (0 : ℤ) BUFFER_LEN
        (readN (0 : ℤ) BUFFER_LEN (audioWrite (audioInit 0) (fun _ => 1))).2).2.outOfSamples
      = true) ∧
    ((readN (0 : ℤ) BUFFER_LEN
        (audioWrite
          (readN (0 : ℤ) BUFFER_LEN
            (readN (0 : ℤ) BUFFER_LEN (audioWrite (audioInit 0) (fun _ => 1))).2).2
          (fun _ => 2))).1 =
      List.replicate BUFFER_LEN (1 : ℤ)) ∧
    (1 : ℤ) ≠ 2 ∧ (1 : ℤ) ≠ 0 := by
  have h0 : audioWrite (audioInit (0 : ℤ)) (fun _ => 1) =
      ⟨0, DBName.b, false, false, fun _ => 1, fun _ => 0⟩ := rfl
  have h1 : readN (0 : ℤ) BUFFER_LEN
      (⟨0, DBName.b, false, false, fun _ => 1, fun _ => 0⟩ : AudioSt ℤ) =
      (List.replicate BUFFER_LEN 0,
        ⟨0, DBName.a, true, false, fun _ => 1, fun _ => 0⟩) := by
    have := readRun_swap (0 : ℤ) 0
      (⟨0, DBName.b, false, false, fun _ => 1, fun _ => 0⟩ : AudioSt ℤ) rfl rfl rfl rfl
    exact this
  have h2 : readN (0 : ℤ) BUFFER_LEN
      (⟨0, DBName.a, true, false, fun _ => 1, fun _ => 0⟩ : AudioSt ℤ) =
      (List.replicate BUFFER_LEN 1,
        ⟨0, DBName.a, true, true, fun _ => 1, fun _ => 0⟩) := by
    have := readRun_steady (0 : ℤ) 1
      (⟨0, DBName.a, true, false, fun _ => 1, fun _ => 0⟩ : AudioSt ℤ) rfl rfl rfl rfl
    exact this
  have h3 : audioWrite (⟨0, DBName.a, true, true, fun _ => 1, fun _ => 0⟩ : AudioSt ℤ)
      (fun _ => 2) = ⟨0, DBName.a, false, false, fun _ => 1, fun _ => 2⟩ := rfl
  have h4 : readN (0 : ℤ) BUFFER_LEN
      (⟨0, DBName.a, false, false, fun _ => 1, fun _ => 2⟩ : AudioSt ℤ) =
      (List.replicate BUFFER_LEN 1,
        ⟨0, DBName.b, true, false, fun _ => 1, fun _ => 2⟩) := by
    have := readRun_swap (0 : ℤ) 1
      (⟨0, DBName.a, false, false, fun _ => 1, fun _ => 2⟩ : AudioSt ℤ) rfl rfl rfl rfl
    exact this
  rw [h0, h1]
  dsimp only
  rw [h2]
  dsimp only
  rw [h3, h4]
  exact ⟨rfl, rfl, by decide, by decide⟩
lemma underrun_tail {α : Type} (z w L : α) (st : AudioSt α) (h : Steady st L) (m : Nat) :
    ((readN z BUFFER_LEN st).1 = List.replicate BUFFER_LEN L) ∧
    ((readN z BUFFER_LEN st).2.outOfSamples = true) ∧
    ((readN z m (readN z BUFFER_LEN st).2).1 = List.replicate m z) ∧
    ((readN z BUFFER_LEN (audioWrite (readN z BUFFER_LEN st).2 (fun _ => w))).1 =
        List.replicate BUFFER_LEN L) ∧
    ((readN z BUFFER_LEN
        (readN z BUFFER_LEN (audioWrite (readN z BUFFER_LEN st).2 (fun _ => w))).2).1 =
        List.replicate BUFFER_LEN w) := by
  obtain ⟨ix, nr, cw, oos, bA, bB⟩ := st
  obtain ⟨s0, scw, soos, sbuf⟩ := h
  simp only at s0 scw soos sbuf
  subst s0 scw soos
  cases nr with
  | a =>
      have hbA : bA = fun _ => L := sbuf
      subst hbA
      have h2 := readRun_steady z L
        (⟨0, DBName.a, true, false, fun _ => L, bB⟩ : AudioSt α) rfl rfl rfl rfl
      rw [h2]
      dsimp only
      have hw : audioWrite (⟨0, DBName.a, true, true, fun _ => L, bB⟩ : AudioSt α)
          (fun _ => w) = ⟨0, DBName.a, false, false, fun _ => L, fun _ => w⟩ := rfl
      have h4 := readRun_swap z L
        (⟨0, DBName.a, false, false, fun _ => L, fun _ => w⟩ : AudioSt α) rfl rfl rfl rfl
      have h5 := readRun_steady z w
        (⟨0, DBName.b, true, false, fun _ => L, fun _ => w⟩ : AudioSt α) rfl rfl rfl rfl
      refine ⟨rfl, rfl, ?_, ?_, ?_⟩
      · rw [readN_oos z m _ rfl]
      · rw [hw, h4]
      · rw [hw, h4]
        dsimp only
        rw [show DBName.a.next = DBName.b from rfl, h5]
  | b =>
      have hbB : bB = fun _ => L := sbuf
      subst hbB
      have h2 := readRun_steady z L
        (⟨0, DBName.b, true, false, bA, fun _ => L⟩ : AudioSt α) rfl rfl rfl rfl
      rw [h2]
      dsimp only
      have hw : audioWrite (⟨0, DBName.b, true, true, bA, fun _ => L⟩ : AudioSt α)
          (fun _ => w) = ⟨0, DBName.b, false, false, fun _ => w, fun _ => L⟩ := rfl
      have h4 := readRun_swap z L
        (⟨0, DBName.b, false, false, fun _ => w, fun _ => L⟩ : AudioSt α) rfl rfl rfl rfl
      have h5 := readRun_steady z w
        (⟨0, DBName.a, true, false, fun _ => w, fun _ => L⟩ : AudioSt α) rfl rfl rfl rfl
      refine ⟨rfl, rfl, ?_, ?_, ?_⟩
      · rw [readN_oos z m _ rfl]
      · rw [hw, h4]
      · rw [hw, h4]
        dsimp only
        rw [show DBName.b.next = DBName.a from rfl, h5]

/-- C4 amended: under the alternating write/read-a-block schedule the reader
returns, after an initial block of zeros (the zeroed startup buffer), each
written block's samples exactly once, in order, one block behind the writer;
when the writer then stops, the reader drains the last written block, flags
`out_of_samples`, and returns the zero sample for every pull until the
writer's next write; after that write the reader first replays the block it
had already delivered before the underrun, and the block after that replay
is the writer's next fully written block. -/
theorem audio_double_buffer_handoff {α : Type} (z w : α) (vs : List α) (m : Nat)
    (hvs : vs ≠ []) :
    ((keepUp z (audioInit z) vs).1 =
        ((z :: vs).dropLast).flatMap (List.replicate BUFFER_LEN)) ∧
    ((readN z BUFFER_LEN (keepUp z (audioInit z) vs).2).1 =
        List.replicate BUFFER_LEN (vs.getLast hvs)) ∧
    ((readN z BUFFER_LEN (keepUp z (audioInit z) vs).2).2.outOfSamples = true) ∧
    ((readN z m (readN z BUFFER_LEN (keepUp z (audioInit z) vs).2).2).1 =
        List.replicate m z) ∧
    ((readN z BUFFER_LEN
        (audioWrite (readN z BUFFER_LEN (keepUp z (audioInit z) vs).2).2
          (fun _ => w))).1 =
        List.replicate BUFFER_LEN (vs.getLast hvs)) ∧
    ((readN z BUFFER_LEN
        (readN z BUFFER_LEN
          (audioWrite (readN z BUFFER_LEN (keepUp z (audioInit z) vs).2).2
            (fun _ => w))).2).1 =
        List.replicate BUFFER_LEN w) := by
  cases vs with
  | nil => exact absurd rfl hvs
  | cons v vs' =>
      have hready : Ready (audioInit z) z := ⟨rfl, rfl⟩
      obtain ⟨h1out, h1st⟩ := roundStep_spec z z v [] (audioInit z) hready
      obtain ⟨hKout, hKst⟩ := keepUp_go z vs' (roundStep z ([], audioInit z) v).2 v
        (roundStep z ([], audioInit z) v).1 h1st
      have hunfold : keepUp z (audioInit z) (v :: vs') =
          vs'.foldl (roundStep z)
            ((roundStep z ([], audioInit z) v).1, (roundStep z ([], audioInit z) v).2) := by
        rw [keepUp, List.foldl_cons, Prod.mk.eta]
      have hgoal1 : (keepUp z (audioInit z) (v :: vs')).1 =
          ((z :: v :: vs').dropLast).flatMap (List.replicate BUFFER_LEN) := by
        rw [hunfold, hKout, h1out, List.nil_append]
        rfl
      rw [← hunfold] at hKst
      obtain ⟨t1, t2, t3, t4, t5⟩ :=
        underrun_tail z w ((v :: vs').getLast (by simp))
          (keepUp z (audioInit z) (v :: vs')).2 hKst m
      exact ⟨hgoal1, t1, t2, t3, t4, t5⟩

/-- Witness for C4: the schedule instantiated with stamps 5 and 7 over `ℤ`,
three underrun pulls, and recovery stamp 9. -/
theorem audio_double_buffer_handoff_witness :
    ((keepUp (0 : ℤ) (audioInit 0) [5, 7]).1 =
        (((0 : ℤ) :: [5, 7]).dropLast).flatMap (List.replicate BUFFER_LEN)) ∧
    ((readN (0 : ℤ) BUFFER_LEN (keepUp (0 : ℤ) (audioInit 0) [5, 7]).2).1 =
        List.replicate BUFFER_LEN (7 : ℤ)) ∧
    ((readN (0 : ℤ) BUFFER_LEN (keepUp (0 : ℤ) (audioInit 0) [5, 7]).2).2.outOfSamples
        = true) ∧
    ((readN (0 : ℤ) 3
        (readN (0 : ℤ) BUFFER_LEN (keepUp (0 : ℤ) (audioInit 0) [5, 7]).2).2).1 =
        List.replicate 3 (0 : ℤ)) ∧
    ((readN (0 : ℤ) BUFFER_LEN
        (audioWrite (readN (0 : ℤ) BUFFER_LEN (keepUp (0 : ℤ) (audioInit 0) [5, 7]).2).2
          (fun _ => 9))).1 =
        List.replicate BUFFER_LEN (7 : ℤ)) ∧
    ((readN (0 : ℤ) BUFFER_LEN
        (readN (0 : ℤ) BUFFER_LEN
          (audioWrite (readN (0 : ℤ) BUFFER_LEN (keepUp (0 : ℤ) (audioInit 0) [5, 7]).2).2
            (fun _ => 9))).2).1 =
        List.replicate BUFFER_LEN (9 : ℤ)) :=
  audio_double_buffer_handoff (0 : ℤ) 9 [5, 7] 3 (by decide)

/-! ### The graph store (`host.rs`)

The host keeps one port storage per buffer element kind (`f32` and
`MidiEvents`); every store operation acts on the storage of one kind, so the
embedding is parametric in the element type `α`. Module handles are indices
into the module list (`next_module_idx` counts up from 0 and nothing is ever
removed, so the `HashMap<usize, ModuleInternals>` is index-dense and a list
indexed by handle is faithful). -/

/-- Source `host.rs`: `ModuleBufferHandle` with `BufferHandle` flattened: the
owning module's index and the port's index into the per-kind port list. -/
structure MBH where
  module : Nat
  buf : Nat
deriving DecidableEq

/-- Source `host.rs`: `enum BufferInPort<T> { OutBuffer(ModuleBufferHandle<Out<T>>), Constant(Buffer<T>) }`. -/
inductive BufferInPort (α : Type) where
  | outBuffer (out : MBH)
  | const (buffer : List α)
deriving DecidableEq

/-- Source `host.rs`: `BufferInPort::with_constant`, a constant block of
`BUFFER_LEN` copies of the value (`T::new_buffer`). -/
def BufferInPort.withConstant {α : Type} (value : α) : BufferInPort α :=
  BufferInPort.const (List.replicate BUFFER_LEN value)

/-- Source `host.rs`: `BufferInPort::OutBuffer`, as a `Bool` test. -/
def BufferInPort.isLinked {α : Type} : BufferInPort α → Bool
  | BufferInPort.outBuffer _ => true
  | BufferInPort.const _ => false

/-- Source `host.rs`: `struct BufferOutPort<T> { buffer: Buffer<T>, dependents: Vec<ModuleBufferHandle<In<T>>> }`. -/
structure BufferOutPort (α : Type) where
  buffer : List α
  dependents : List MBH
deriving DecidableEq

/-- Source `host.rs`: the per-module graph data of `ModuleInternals` for one
element kind: `num_dependencies` and the in- and out-port lists. -/
structure ModuleSt (α : Type) where
  numDependencies : Nat
  bufIn : List (BufferInPort α)
  bufOut : List (BufferOutPort α)
deriving DecidableEq

/-- Source `host.rs`: the `Host` graph state: the module table (handle =
index), the set of taken module names (the keys of `module_handles`), and
`next_module_idx`. -/
structure Host (α : Type) where
  modules : List (ModuleSt α)
  moduleNames : List String
  nextModuleIdx : Nat
deriving DecidableEq

/-- The out-of-range junk module (Rust would panic; every theorem carries
validity hypotheses keeping lookups in range). -/
def emptyModule {α : Type} : ModuleSt α := ⟨0, [], []⟩

/-- Module lookup by handle. -/
def Host.getModule {α : Type} (h : Host α) (i : Nat) : ModuleSt α :=
  h.modules.getD i emptyModule

/-- In-port lookup by handle. -/
def Host.getInPort {α : Type} (h : Host α) (p : MBH) : BufferInPort α :=
  (h.getModule p.module).bufIn.getD p.buf (BufferInPort.const [])

/-- In-port lookup by handle, `none` when the handle is dangling. -/
def Host.getInPortOpt {α : Type} (h : Host α) (p : MBH) : Option (BufferInPort α) :=
  h.modules[p.module]? >>= fun m => m.bufIn[p.buf]?

/-- Out-port lookup by handle. -/
def Host.getOutPort {α : Type} (h : Host α) (p : MBH) : BufferOutPort α :=
  (h.getModule p.module).bufOut.getD p.buf ⟨[], []⟩

/-- Apply `f` to module `i` in place. -/
def modifyModule {α : Type} (h : Host α) (i : Nat) (f : ModuleSt α → ModuleSt α) :
    Host α :=
  { h with modules := h.modules.set i (f (h.modules.getD i emptyModule)) }

/-- Apply `f` to the out-port at handle `p` in place. -/
def modifyOutPort {α : Type} (h : Host α) (p : MBH)
    (f : BufferOutPort α → BufferOutPort α) : Host α :=
  modifyModule h p.module (fun m =>
    { m with bufOut := m.bufOut.set p.buf (f (m.bufOut.getD p.buf ⟨[], []⟩)) })

/-- The out-port an in-port state points at, if linked. -/
def BufferInPort.linkTarget {α : Type} : BufferInPort α → Option MBH
  | BufferInPort.outBuffer out => some out
  | BufferInPort.const _ => none

/-- Source `host.rs`: `Host::set_buffer_in`. Snapshot the old in-port state;
adjust the in-module's `num_dependencies` by the constant/linked transition;
store the new state; `retain` the handle out of the old producer's
`dependents`; `push` it onto the new producer's `dependents`. -/
def setBufferIn {α : Type} (h : Host α) (ph : MBH) (new : BufferInPort α) : Host α :=
  let port := h.getInPort ph
  let h1 := modifyModule h ph.module (fun m =>
    { m with
      numDependencies :=
        match port, new with
        | BufferInPort.outBuffer _, BufferInPort.const _ => m.numDependencies - 1
        | BufferInPort.const _, BufferInPort.outBuffer _ => m.numDependencies + 1
        | _, _ => m.numDependencies,
      bufIn := m.bufIn.set ph.buf new })
  let h2 := match port.linkTarget with
    | some out => modifyOutPort h1 out (fun op =>
        { op with dependents := op.dependents.filter (fun d => decide (d ≠ ph)) })
    | none => h1
  match new.linkTarget with
  | some out => modifyOutPort h2 out (fun op =>
      { op with dependents := op.dependents ++ [ph] })
  | none => h2

/-- Source `host.rs`: `Host::link`. -/
def link {α : Type} (h : Host α) (bufOut bufIn : MBH) : Host α :=
  setBufferIn h bufIn (BufferInPort.outBuffer bufOut)

/-- Source `host.rs`: `Host::link_value`. -/
def linkValue {α : Type} (h : Host α) (value : α) (bufIn : MBH) : Host α :=
  setBufferIn h bufIn (BufferInPort.withConstant value)

/-- A call to `link` or `link_value`, for reasoning over call sequences. -/
inductive LinkOp (α : Type) where
  | link (bufOut bufIn : MBH)
  | linkValue (value : α) (bufIn : MBH)
deriving DecidableEq

/-- The in-port a `LinkOp` writes. -/
def LinkOp.target {α : Type} : LinkOp α → MBH
  | LinkOp.link _ bufIn => bufIn
  | LinkOp.linkValue _ bufIn => bufIn

/-- Run one `LinkOp`. -/
def applyOp {α : Type} (h : Host α) : LinkOp α → Host α
  | LinkOp.link bufOut bufIn => link h bufOut bufIn
  | LinkOp.linkValue value bufIn => linkValue h value bufIn

/-- Run a sequence of `link`/`link_value` calls. -/
def applyOps {α : Type} (h : Host α) (ops : List (LinkOp α)) : Host α :=
  ops.foldl applyOp h

/-- The handle addresses an existing in-port. -/
def validIn {α : Type} (h : Host α) (p : MBH) : Prop :=
  p.module < h.modules.length ∧ p.buf < (h.getModule p.module).bufIn.length

instance {α : Type} (h : Host α) (p : MBH) : Decidable (validIn h p) :=
  decidable_of_iff
    (p.module < h.modules.length ∧ p.buf < (h.getModule p.module).bufIn.length) Iff.rfl

/-- The handle addresses an existing out-port. -/
def validOut {α : Type} (h : Host α) (p : MBH) : Prop :=
  p.module < h.modules.length ∧ p.buf < (h.getModule p.module).bufOut.length

instance {α : Type} (h : Host α) (p : MBH) : Decidable (validOut h p) :=
  decidable_of_iff
    (p.module < h.modules.length ∧ p.buf < (h.getModule p.module).bufOut.length) Iff.rfl

/-- Both handles of a `LinkOp` address existing ports. -/
def LinkOp.valid {α : Type} (h : Host α) : LinkOp α → Prop
  | LinkOp.link bufOut bufIn => validOut h bufOut ∧ validIn h bufIn
  | LinkOp.linkValue _ bufIn => validIn h bufIn

instance {α : Type} (h : Host α) (op : LinkOp α) : Decidable (op.valid h) := by
  cases op with
  | link bufOut bufIn =>
      exact decidable_of_iff (validOut h bufOut ∧ validIn h bufIn) Iff.rfl
  | linkValue value bufIn => exact decidable_of_iff (validIn h bufIn) Iff.rfl

/-- Source `host.rs`: `struct GroupBufferHandle<T> { group: GroupHandle, handles: Vec<ModuleBufferHandle<T>> }`. -/
structure GroupBufferHandle where
  group : Nat
  handles : List MBH
deriving DecidableEq

/-- The host error cases exercised by these claims (payloads of the Rust
`HostError` variants are dropped). -/
inductive HostErr where
  | duplicateIdentifier
  | moduleInit
  | bufferGroupMismatch
deriving DecidableEq

/-- Source `host.rs`: `Host::link_group`, returning the resulting state and
the error, if any: fail on group mismatch before touching anything,
otherwise link the zipped handle pairs element-wise. -/
def linkGroupRun {α : Type} (h : Host α) (bufOut bufIn : GroupBufferHandle) :
    Host α × Option HostErr :=
  if bufOut.group ≠ bufIn.group then (h, some HostErr.bufferGroupMismatch)
  else ((bufOut.handles.zip bufIn.handles).foldl (fun acc p => link acc p.1 p.2) h, none)

/-- The module-init error cases (payloads dropped). -/
inductive ModuleErr where
  | custom
  | duplicateBufferIdentifier
deriving DecidableEq

/-- Source `host.rs`: `Host::create_variadic_module` (and `create_module`,
which forwards with `num_args = 0`). The outcome of
`ModuleInternals::new::<T>` is host-independent, so it is passed in as
`initResult`. A duplicate name fails before anything happens; an init error
propagates out of `create_variadic_module_anonymous` before the index is
bumped; on success the module is stored at `next_module_idx`, the counter is
bumped and the name is recorded. -/
def createVariadicModule {α : Type} (h : Host α) (name : String)
    (initResult : Except ModuleErr (ModuleSt α)) : Host α × Option HostErr :=
  if h.moduleNames.contains name then (h, some HostErr.duplicateIdentifier)
  else
    match initResult with
    | Except.error _ => (h, some HostErr.moduleInit)
    | Except.ok m =>
        (⟨h.modules ++ [m], h.moduleNames ++ [name], h.nextModuleIdx + 1⟩, none)

/-- C8: creating a module (plain or variadic) under a name that already
exists fails with the duplicate-identifier error, and the host's graph state
(module table, name map and next-handle counter) is returned unchanged,
whatever the module's init would have produced. -/
theorem create_module_duplicate_name {α : Type} (h : Host α) (name : String)
    (initResult : Except ModuleErr (ModuleSt α))
    (hdup : h.moduleNames.contains name = true) :
    createVariadicModule h name initResult = (h, some HostErr.duplicateIdentifier) := by
  unfold createVariadicModule
  rw [if_pos hdup]

/-- Witness for C8: a concrete host that already owns the name. -/
theorem create_module_duplicate_name_witness :
    createVariadicModule (⟨[emptyModule], ["audio_out"], 1⟩ : Host ℚ) "audio_out"
      (Except.ok emptyModule) =
    ((⟨[emptyModule], ["audio_out"], 1⟩ : Host ℚ), some HostErr.duplicateIdentifier) :=
  create_module_duplicate_name _ _ _ (by decide)

/-- C6: `link_group(A, B)` fails with the group-mismatch error and leaves the
host untouched whenever the two sides' handle lists have different lengths or
different groups (API-built group handles of one group always have that
group's K handles, which the well-formedness hypothesis records); when it
succeeds the two lists have equal length K and the effect is exactly the K
element-wise individual `link` calls. -/
theorem link_group_arity {α : Type} (h : Host α) (A B : GroupBufferHandle)
    (hwf : A.handles.length ≠ B.handles.length → A.group ≠ B.group) :
    ((A.handles.length ≠ B.handles.length ∨ A.group ≠ B.group) →
      linkGroupRun h A B = (h, some HostErr.bufferGroupMismatch)) ∧
    (A.group = B.group →
      (A.handles.length = B.handles.length ∧
        (A.handles.zip B.handles).length = A.handles.length ∧
        linkGroupRun h A B =
          (applyOps h ((A.handles.zip B.handles).map (fun p => LinkOp.link p.1 p.2)),
            none))) := by
  constructor
  · intro hbad
    have hne : A.group ≠ B.group := by
      rcases hbad with hlen | hgrp
      · exact hwf hlen
      · exact hgrp
    rw [linkGroupRun, if_pos hne]
  · intro heq
    have hlen : A.handles.length = B.handles.length := by
      by_contra hne
      exact hwf hne heq
    refine ⟨hlen, ?_, ?_⟩
    · rw [List.length_zip, hlen, min_self]
    · rw [linkGroupRun, if_neg (by simp [heq])]
      rw [applyOps, List.foldl_map]
      rfl

/-- The concrete host of the C6 witness: two modules, one out-port on the
first, two constant in-ports on the second. -/
def lgHost : Host ℚ :=
  ⟨[⟨0, [], [⟨[], []⟩]⟩, ⟨0, [BufferInPort.const [], BufferInPort.const []], []⟩], [], 2⟩

/-- A one-handle group buffer handle in group 0. -/
def lgA : GroupBufferHandle := ⟨0, [⟨0, 0⟩]⟩

/-- A two-handle group buffer handle in group 1. -/
def lgB : GroupBufferHandle := ⟨1, [⟨1, 0⟩, ⟨1, 1⟩]⟩

/-- Witness for C6: mismatched lengths and groups at concrete handles; the
call fails with the group-mismatch error and returns the host unchanged. -/
theorem link_group_arity_witness :
    (lgA.handles.length ≠ lgB.handles.length ∨ lgA.group ≠ lgB.group) ∧
    linkGroupRun lgHost lgA lgB = (lgHost, some HostErr.bufferGroupMismatch) := by
  refine ⟨by decide, ?_⟩
  exact (link_group_arity lgHost lgA lgB (by intro _; decide)).1 (by decide)

/-! ### C2: the dependency-count invariant -/

/-- The number of in-ports of a module that are currently linked (not
constant): the measure `num_dependencies` is specified to track. -/
def countLinked {α : Type} : List (BufferInPort α) → Nat
  | [] => 0
  | p :: rest => (if p.isLinked then 1 else 0) + countLinked rest

/-- Invariant: every module's `num_dependencies` equals its number of linked
in-ports. -/
def depsInv {α : Type} (h : Host α) : Prop :=
  ∀ j, j < h.modules.length →
    (h.getModule j).numDependencies = countLinked (h.getModule j).bufIn

instance {α : Type} (h : Host α) : Decidable (depsInv h) :=
  Nat.decidableBallLT h.modules.length
    (fun j _ => (h.getModule j).numDependencies = countLinked (h.getModule j).bufIn)

lemma set_of_length_le {β : Type} :
    ∀ (l : List β) (n : Nat), l.length ≤ n → ∀ v : β, l.set n v = l := by
  intro l
  induction l with
  | nil => intro n _ v; rfl
  | cons a as ih =>
      intro n h v
      cases n with
      | zero => simp at h
      | succ m =>
          show a :: as.set m v = a :: as
          rw [ih m (by simpa using h) v]

lemma getModule_modifyModule {α : Type} (h : Host α) (i : Nat)
    (f : ModuleSt α → ModuleSt α) (j : Nat) :
    (modifyModule h i f).getModule j =
      if i = j ∧ i < h.modules.length then f (h.getModule i) else h.getModule j := by
  unfold modifyModule Host.getModule
  dsimp only
  by_cases hij : i = j
  · subst hij
    by_cases hi : i < h.modules.length
    · rw [if_pos ⟨rfl, hi⟩]
      exact getD_set_self _ _ hi _ _
    · rw [if_neg (by tauto), set_of_length_le _ _ (by omega)]
  · rw [if_neg (by tauto)]
    exact getD_set_ne _ _ _ hij _ _

lemma modifyModule_length {α : Type} (h : Host α) (i : Nat) (f : ModuleSt α → ModuleSt α) :
    (modifyModule h i f).modules.length = h.modules.length := by
  unfold modifyModule
  exact List.length_set _ _ _

lemma modifyOutPort_preserves {α : Type} (h : Host α) (p : MBH)
    (f : BufferOutPort α → BufferOutPort α) (j : Nat) :
    (((modifyOutPort h p f).getModule j).numDependencies =
        (h.getModule j).numDependencies) ∧
    (((modifyOutPort h p f).getModule j).bufIn = (h.getModule j).bufIn) ∧
    (((modifyOutPort h p f).getModule j).bufOut.length =
        (h.getModule j).bufOut.length) ∧
    ((modifyOutPort h p f).modules.length = h.modules.length) := by
  unfold modifyOutPort
  rw [getModule_modifyModule]
  by_cases hc : p.module = j ∧ p.module < h.modules.length
  · rw [if_pos hc]
    obtain ⟨rfl, _⟩ := hc
    exact ⟨rfl, rfl, List.length_set _ _ _, modifyModule_length _ _ _⟩
  · rw [if_neg hc]
    exact ⟨rfl, rfl, rfl, modifyModule_length _ _ _⟩

/-- The `num_dependencies` update of `set_buffer_in` as a function of the
old and new in-port state. -/
def depsAfter {α : Type} (old new : BufferInPort α) (n : Nat) : Nat :=
  match old, new with
  | BufferInPort.outBuffer _, BufferInPort.const _ => n - 1
  | BufferInPort.const _, BufferInPort.outBuffer _ => n + 1
  | _, _ => n

lemma step1_fields {α : Type} (h : Host α) (ph : MBH) (new : BufferInPort α) (j : Nat) :
    (((modifyModule h ph.module (fun m =>
      { m with
        numDependencies :=
          match h.getInPort ph, new with
          | BufferInPort.outBuffer _, BufferInPort.const _ => m.numDependencies - 1
          | BufferInPort.const _, BufferInPort.outBuffer _ => m.numDependencies + 1
          | _, _ => m.numDependencies,
        bufIn := m.bufIn.set ph.buf new })).getModule j).numDependencies =
      (if ph.module = j ∧ ph.module < h.modules.length then
        depsAfter (h.getInPort ph) new (h.getModule j).numDependencies
       else (h.getModule j).numDependencies)) ∧
    (((modifyModule h ph.module (fun m =>
      { m with
        numDependencies :=
          match h.getInPort ph, new with
          | BufferInPort.outBuffer _, BufferInPort.const _ => m.numDependencies - 1
          | BufferInPort.const _, BufferInPort.outBuffer _ => m.numDependencies + 1
          | _, _ => m.numDependencies,
        bufIn := m.bufIn.set ph.buf new })).getModule j).bufIn =
      (if ph.module = j ∧ ph.module < h.modules.length then
        (h.getModule j).bufIn.set ph.buf new
       else (h.getModule j).bufIn)) ∧
    (((modifyModule h ph.module (fun m =>
      { m with
        numDependencies :=
          match h.getInPort ph, new with
          | BufferInPort.outBuffer _, BufferInPort.const _ => m.numDependencies - 1
          | BufferInPort.const _, BufferInPort.outBuffer _ => m.numDependencies + 1
          | _, _ => m.numDependencies,
        bufIn := m.bufIn.set ph.buf new })).getModule j).bufOut.length =
      (h.getModule j).bufOut.length) ∧
    ((modifyModule h ph.module (fun m =>
      { m with
        numDependencies :=
          match h.getInPort ph, new with
          | BufferInPort.outBuffer _, BufferInPort.const _ => m.numDependencies - 1
          | BufferInPort.const _, BufferInPort.outBuffer _ => m.numDependencies + 1
          | _, _ => m.numDependencies,
        bufIn := m.bufIn.set ph.buf new })).modules.length = h.modules.length) := by
  rw [getModule_modifyModule]
  refine ⟨?_, ?_, ?_, modifyModule_length _ _ _⟩
  · by_cases hc : ph.module = j ∧ ph.module < h.modules.length
    · rw [if_pos hc, if_pos hc]
      obtain ⟨rfl, _⟩ := hc
      rcases h.getInPort ph with o | b <;> rcases new with o' | b' <;> rfl
    · rw [if_neg hc, if_neg hc]
  · by_cases hc : ph.module = j ∧ ph.module < h.modules.length
    · rw [if_pos hc, if_pos hc]
      obtain ⟨rfl, _⟩ := hc
      rfl
    · rw [if_neg hc, if_neg hc]
  · by_cases hc : ph.module = j ∧ ph.module < h.modules.length
    · rw [if_pos hc]
      obtain ⟨rfl, _⟩ := hc
      rfl
    · rw [if_neg hc]

lemma setBufferIn_getModule {α : Type} (h : Host α) (ph : MBH) (new : BufferInPort α)
    (j : Nat) :
    (((setBufferIn h ph new).getModule j).numDependencies =
      (if ph.module = j ∧ ph.module < h.modules.length then
        depsAfter (h.getInPort ph) new (h.getModule j).numDependencies
       else (h.getModule j).numDependencies)) ∧
    (((setBufferIn h ph new).getModule j).bufIn =
      (if ph.module = j ∧ ph.module < h.modules.length then
        (h.getModule j).bufIn.set ph.buf new
       else (h.getModule j).bufIn)) ∧
    (((setBufferIn h ph new).getModule j).bufOut.length =
        (h.getModule j).bufOut.length) ∧
    ((setBufferIn h ph new).modules.length = h.modules.length) := by
  obtain ⟨s1, s2, s3, s4⟩ := step1_fields h ph new j
  simp only [setBufferIn]
  cases hold : (h.getInPort ph).linkTarget with
  | none =>
      cases hnew : new.linkTarget with
      | none => exact ⟨s1, s2, s3, s4⟩
      | some out =>
          obtain ⟨p1, p2, p3, p4⟩ := modifyOutPort_preserves _ out
            (fun op => { op with dependents := op.dependents ++ [ph] }) j
          exact ⟨p1.trans s1, p2.trans s2, p3.trans s3, p4.trans s4⟩
  | some outOld =>
      cases hnew : new.linkTarget with
      | none =>
          obtain ⟨p1, p2, p3, p4⟩ := modifyOutPort_preserves _ outOld
            (fun op => { op with
              dependents := op.dependents.filter (fun d => decide (d ≠ ph)) }) j
          exact ⟨p1.trans s1, p2.trans s2, p3.trans s3, p4.trans s4⟩
      | some out =>
          obtain ⟨q1, q2, q3, q4⟩ := modifyOutPort_preserves _ outOld
            (fun op => { op with
              dependents := op.dependents.filter (fun d => decide (d ≠ ph)) }) j
          obtain ⟨p1, p2, p3, p4⟩ := modifyOutPort_preserves
            (modifyOutPort _ outOld
              (fun op => { op with
                dependents := op.dependents.filter (fun d => decide (d ≠ ph)) })) out
            (fun op => { op with dependents := op.dependents ++ [ph] }) j
          exact ⟨(p1.trans q1).trans s1, (p2.trans q2).trans s2,
            (p3.trans q3).trans s3, (p4.trans q4).trans s4⟩

lemma countLinked_set {α : Type} :
    ∀ (l : List (BufferInPort α)) (k : Nat) (v : BufferInPort α), k < l.length →
      countLinked (l.set k v) +
        (if (l.getD k (BufferInPort.const [])).isLinked then 1 else 0) =
      countLinked l + (if v.isLinked then 1 else 0) := by
  intro l
  induction l with
  | nil => intro k v hk; simp at hk
  | cons p rest ih =>
      intro k v hk
      cases k with
      | zero =>
          have hgd : (p :: rest).getD 0 (BufferInPort.const []) = p := rfl
          rw [hgd]
          show countLinked (v :: rest) + _ = _
          unfold countLinked
          omega
      | succ k' =>
          show countLinked (p :: rest.set k' v) + _ = _
          unfold countLinked
          have := ih k' v (by simpa using hk)
          have hgd : (p :: rest).getD (k' + 1) (BufferInPort.const []) =
              rest.getD k' (BufferInPort.const []) := rfl
          rw [hgd]
          omega

lemma countLinked_pos {α : Type} :
    ∀ (l : List (BufferInPort α)) (k : Nat), k < l.length →
      (l.getD k (BufferInPort.const [])).isLinked = true → 1 ≤ countLinked l := by
  intro l
  induction l with
  | nil => intro k hk; simp at hk
  | cons p rest ih =>
      intro k hk hl
      cases k with
      | zero =>
          unfold countLinked
          have hpl : p.isLinked = true := hl
          rw [if_pos hpl]
          omega
      | succ k' =>
          unfold countLinked
          have := ih k' (by simpa using hk) hl
          omega

lemma depsInv_setBufferIn {α : Type} (h : Host α) (ph : MBH) (new : BufferInPort α)
    (hv : validIn h ph) (hInv : depsInv h) : depsInv (setBufferIn h ph new) := by
  obtain ⟨hvm, hvb⟩ := hv
  intro j hj
  obtain ⟨hdeps, hbufIn, _, hlen⟩ := setBufferIn_getModule h ph new j
  rw [hlen] at hj
  rw [hdeps, hbufIn]
  by_cases hc : ph.module = j ∧ ph.module < h.modules.length
  · rw [if_pos hc, if_pos hc]
    obtain ⟨rfl, _⟩ := hc
    have hcount := countLinked_set (h.getModule ph.module).bufIn ph.buf new hvb
    have hold : h.getInPort ph =
        (h.getModule ph.module).bufIn.getD ph.buf (BufferInPort.const []) := rfl
    have hbase := hInv ph.module hj
    rcases hport : h.getInPort ph with o | b <;> rcases hnew : new with o' | b'
    · rw [hold] at hport
      rw [hport, hnew] at hcount
      show (h.getModule ph.module).numDependencies = _
      simp [BufferInPort.isLinked] at hcount
      omega
    · rw [hold] at hport
      rw [hport, hnew] at hcount
      show (h.getModule ph.module).numDependencies - 1 = _
      simp [BufferInPort.isLinked] at hcount
      omega
    · rw [hold] at hport
      rw [hport, hnew] at hcount
      show (h.getModule ph.module).numDependencies + 1 = _
      simp [BufferInPort.isLinked] at hcount
      omega
    · rw [hold] at hport
      rw [hport, hnew] at hcount
      show (h.getModule ph.module).numDependencies = _
      simp [BufferInPort.isLinked] at hcount
      omega
  · rw [if_neg hc, if_neg hc]
    exact hInv j hj

lemma applyOp_shape {α : Type} (h : Host α) (op : LinkOp α) :
    ((applyOp h op).modules.length = h.modules.length) ∧
    (∀ j, ((applyOp h op).getModule j).bufIn.length = (h.getModule j).bufIn.length) ∧
    (∀ j, ((applyOp h op).getModule j).bufOut.length = (h.getModule j).bufOut.length) := by
  have key : ∀ (ph : MBH) (new : BufferInPort α),
      ((setBufferIn h ph new).modules.length = h.modules.length) ∧
      (∀ j, ((setBufferIn h ph new).getModule j).bufIn.length =
        (h.getModule j).bufIn.length) ∧
      (∀ j, ((setBufferIn h ph new).getModule j).bufOut.length =
        (h.getModule j).bufOut.length) := by
    intro ph new
    refine ⟨(setBufferIn_getModule h ph new 0).2.2.2, ?_, ?_⟩
    · intro j
      obtain ⟨_, hbufIn, _, _⟩ := setBufferIn_getModule h ph new j
      rw [hbufIn]
      by_cases hc : ph.module = j ∧ ph.module < h.modules.length
      · rw [if_pos hc]; exact List.length_set _ _ _
      · rw [if_neg hc]
    · intro j
      exact (setBufferIn_getModule h ph new j).2.2.1
  cases op with
  | link bufOut bufIn => exact key bufIn (BufferInPort.outBuffer bufOut)
  | linkValue value bufIn => exact key bufIn (BufferInPort.withConstant value)

lemma applyOp_valid_frame {α : Type} (h : Host α) (op : LinkOp α) (op' : LinkOp α) :
    op'.valid h → op'.valid (applyOp h op) := by
  obtain ⟨hlen, hin, hout⟩ := applyOp_shape h op
  intro hv
  cases op' with
  | link bufOut bufIn =>
      obtain ⟨⟨a1, a2⟩, b1, b2⟩ := hv
      exact ⟨⟨by omega, by rw [hout]; exact a2⟩, ⟨by omega, by rw [hin]; exact b2⟩⟩
  | linkValue value bufIn =>
      obtain ⟨a1, a2⟩ := hv
      exact ⟨by omega, by rw [hin]; exact a2⟩

lemma depsInv_applyOp {α : Type} (h : Host α) (op : LinkOp α) (hv : op.valid h)
    (hInv : depsInv h) : depsInv (applyOp h op) := by
  cases op with
  | link bufOut bufIn => exact depsInv_setBufferIn h bufIn _ hv.2 hInv
  | linkValue value bufIn => exact depsInv_setBufferIn h bufIn _ hv hInv

/-- C2: starting from any host satisfying the invariant, after any sequence
of valid `link`/`link_value` calls every module's `num_dependencies` still
equals its number of linked in-ports; and one `set_buffer_in` call (the body
of both `link` and `link_value`) leaves the count unchanged when the target
port's linked/constant status does not change, increments it exactly on a
constant-to-linked transition, and decrements it (from a positive value)
exactly on a linked-to-constant transition. -/
theorem num_dependencies_invariant {α : Type} (h0 : Host α) (ops : List (LinkOp α))
    (hInv : depsInv h0) (hValid : ∀ op ∈ ops, op.valid h0) :
    depsInv (applyOps h0 ops) ∧
    (∀ (h : Host α) (ph : MBH) (new : BufferInPort α), validIn h ph → depsInv h →
      (((h.getInPort ph).isLinked = new.isLinked →
        ((setBufferIn h ph new).getModule ph.module).numDependencies =
          (h.getModule ph.module).numDependencies) ∧
       ((h.getInPort ph).isLinked = false → new.isLinked = true →
        ((setBufferIn h ph new).getModule ph.module).numDependencies =
          (h.getModule ph.module).numDependencies + 1) ∧
       ((h.getInPort ph).isLinked = true → new.isLinked = false →
        1 ≤ (h.getModule ph.module).numDependencies ∧
        ((setBufferIn h ph new).getModule ph.module).numDependencies =
          (h.getModule ph.module).numDependencies - 1))) := by
  constructor
  · induction ops generalizing h0 with
    | nil => exact hInv
    | cons op rest ih =>
        rw [applyOps, List.foldl_cons]
        exact ih (applyOp h0 op)
          (depsInv_applyOp h0 op (hValid op (by simp)) hInv)
          (fun op' hop' => applyOp_valid_frame h0 op op' (hValid op' (by simp [hop'])))
  · intro h ph new hv hdi
    obtain ⟨hvm, hvb⟩ := hv
    obtain ⟨hdeps, _, _, _⟩ := setBufferIn_getModule h ph new ph.module
    rw [hdeps, if_pos ⟨rfl, hvm⟩]
    have hold : h.getInPort ph =
        (h.getModule ph.module).bufIn.getD ph.buf (BufferInPort.const []) := rfl
    rcases hp : h.getInPort ph with o | b <;> rcases hn : new with o' | b'
    · refine ⟨fun _ => rfl, ?_, ?_⟩
      · intro hfalse _; simp [BufferInPort.isLinked] at hfalse
      · intro _ hfalse; simp [BufferInPort.isLinked] at hfalse
    · refine ⟨?_, ?_, ?_⟩
      · intro hsame; simp [BufferInPort.isLinked] at hsame
      · intro hfalse _; simp [BufferInPort.isLinked] at hfalse
      · intro _ _
        refine ⟨?_, rfl⟩
        rw [hdi ph.module hvm]
        apply countLinked_pos _ ph.buf hvb
        rw [← hold, hp]
        rfl
    · refine ⟨?_, fun _ _ => rfl, ?_⟩
      · intro hsame; simp [BufferInPort.isLinked] at hsame
      · intro hfalse _; simp [BufferInPort.isLinked] at hfalse
    · refine ⟨fun _ => rfl, ?_, ?_⟩
      · intro _ hfalse; simp [BufferInPort.isLinked] at hfalse
      · intro hfalse _; simp [BufferInPort.isLinked] at hfalse

/-- The concrete host of the C2/C3 witnesses: module 0 with one out-port,
module 1 with two constant in-ports. -/
def c2Host : Host ℚ :=
  ⟨[⟨0, [], [⟨[], []⟩]⟩, ⟨0, [BufferInPort.const [], BufferInPort.const []], []⟩], [], 2⟩

/-- The concrete call sequence of the C2/C3 witnesses: link, overwrite with a
constant, link the other port. -/
def c2Ops : List (LinkOp ℚ) :=
  [LinkOp.link ⟨0, 0⟩ ⟨1, 0⟩, LinkOp.linkValue 5 ⟨1, 0⟩, LinkOp.link ⟨0, 0⟩ ⟨1, 1⟩]

/-- Witness for C2: the invariant after the concrete call sequence, and the
unchanged-count case of the transition clause at a concrete constant-to-
constant rewrite. -/
theorem num_dependencies_invariant_witness :
    depsInv (applyOps c2Host c2Ops) ∧
    ((setBufferIn c2Host ⟨1, 0⟩ (BufferInPort.withConstant (5 : ℚ))).getModule 1).numDependencies =
      (c2Host.getModule 1).numDependencies := by
  constructor
  · exact (num_dependencies_invariant c2Host c2Ops (by decide) (by decide)).1
  · exact ((num_dependencies_invariant c2Host c2Ops (by decide) (by decide)).2
      c2Host ⟨1, 0⟩ (BufferInPort.withConstant 5) (by decide) (by decide)).1 (by decide)

/-! ### C7: constant port semantics -/

/-- Source `host.rs`, `get_linked_ports` (inside `process_module`): the block
each in-port exposes to `fill_buffers` — the producer's out-block for a
linked port, the constant block stored on the port otherwise. -/
def getLinkedPorts {α : Type} (h : Host α) (m : ModuleSt α) : List (List α) :=
  m.bufIn.map (fun port =>
    match port with
    | BufferInPort.outBuffer hb => (h.getOutPort hb).buffer
    | BufferInPort.const buf => buf)

lemma getD_map {β γ : Type} (f : β → γ) :
    ∀ (l : List β) (k : Nat), k < l.length → ∀ (d : β) (d' : γ),
      (l.map f).getD k d' = f (l.getD k d) := by
  intro l
  induction l with
  | nil => intro k hk; simp at hk
  | cons a as ih =>
      intro k hk d d'
      cases k with
      | zero => rfl
      | succ k' => exact ih k' (by simpa using hk) d d'

lemma getInPort_setBufferIn_ne {α : Type} (h : Host α) (ph : MBH)
    (new : BufferInPort α) (q : MBH) (hq : q ≠ ph) :
    (setBufferIn h ph new).getInPort q = h.getInPort q := by
  unfold Host.getInPort
  obtain ⟨_, hbufIn, _, _⟩ := setBufferIn_getModule h ph new q.module
  rw [hbufIn]
  by_cases hc : ph.module = q.module ∧ ph.module < h.modules.length
  · rw [if_pos hc]
    obtain ⟨hm, _⟩ := hc
    have hb : ph.buf ≠ q.buf := by
      intro hbb
      apply hq
      cases q
      cases ph
      simp only at hm hbb
      simp [hm, hbb]
    exact getD_set_ne _ _ _ hb _ _
  · rw [if_neg hc]

lemma getInPort_setBufferIn_self {α : Type} (h : Host α) (ph : MBH)
    (new : BufferInPort α) (hv : validIn h ph) :
    (setBufferIn h ph new).getInPort ph = new := by
  unfold Host.getInPort
  obtain ⟨_, hbufIn, _, _⟩ := setBufferIn_getModule h ph new ph.module
  rw [hbufIn, if_pos ⟨rfl, hv.1⟩]
  exact getD_set_self _ _ hv.2 _ _

lemma getInPort_applyOp_ne {α : Type} (h : Host α) (op : LinkOp α) (q : MBH)
    (hq : op.target ≠ q) : (applyOp h op).getInPort q = h.getInPort q := by
  cases op with
  | link bufOut bufIn =>
      exact getInPort_setBufferIn_ne h bufIn _ q (fun hc => hq hc.symm)
  | linkValue value bufIn =>
      exact getInPort_setBufferIn_ne h bufIn _ q (fun hc => hq hc.symm)

lemma getInPort_applyOps_frame {α : Type} :
    ∀ (ops : List (LinkOp α)) (h : Host α) (q : MBH),
      (∀ op ∈ ops, LinkOp.target op ≠ q) →
      (applyOps h ops).getInPort q = h.getInPort q := by
  intro ops
  induction ops with
  | nil => intro h q _; rfl
  | cons op rest ih =>
      intro h q hops
      rw [applyOps, List.foldl_cons]
      have h1 := ih (applyOp h op) q (fun op' hop' => hops op' (by simp [hop']))
      rw [applyOps] at h1
      rw [h1]
      exact getInPort_applyOp_ne h op q (hops op (by simp))

lemma applyOps_shape {α : Type} :
    ∀ (ops : List (LinkOp α)) (h : Host α),
      ((applyOps h ops).modules.length = h.modules.length) ∧
      (∀ j, ((applyOps h ops).getModule j).bufIn.length =
        (h.getModule j).bufIn.length) ∧
      (∀ j, ((applyOps h ops).getModule j).bufOut.length =
        (h.getModule j).bufOut.length) := by
  intro ops
  induction ops with
  | nil => intro h; exact ⟨rfl, fun _ => rfl, fun _ => rfl⟩
  | cons op rest ih =>
      intro h
      rw [applyOps, List.foldl_cons]
      obtain ⟨i1, i2, i3⟩ := ih (applyOp h op)
      obtain ⟨a1, a2, a3⟩ := applyOp_shape h op
      rw [applyOps] at i1 i2 i3
      exact ⟨i1.trans a1, fun j => (i2 j).trans (a2 j), fun j => (i3 j).trans (a3 j)⟩

lemma getLinkedPorts_const {α : Type} (h : Host α) (ph : MBH)
    (hv : validIn h ph) (buf : List α)
    (hport : h.getInPort ph = BufferInPort.const buf) :
    (getLinkedPorts h (h.getModule ph.module)).getD ph.buf [] = buf := by
  unfold getLinkedPorts
  rw [getD_map _ _ ph.buf hv.2 (BufferInPort.const [])]
  have : (h.getModule ph.module).bufIn.getD ph.buf (BufferInPort.const []) =
      BufferInPort.const buf := hport
  rw [this]

/-- C7: after `link_value(v)` on an in-port, every later `fill_buffers` of
the owning module observes that port's input as a block of `BUFFER_LEN`
copies of `v` — on every block, through any further `link`/`link_value`
calls that do not re-link this port; and a port that holds its declared
default constant block and is never linked observes `BUFFER_LEN` copies of
the default the same way. -/
theorem constant_port_semantics {α : Type} (h : Host α) (ph : MBH) (v : α)
    (ops : List (LinkOp α)) (hv : validIn h ph)
    (hops : ∀ op ∈ ops, LinkOp.target op ≠ ph) :
    ((getLinkedPorts (applyOps (linkValue h v ph) ops)
        ((applyOps (linkValue h v ph) ops).getModule ph.module)).getD ph.buf [] =
      List.replicate BUFFER_LEN v) ∧
    (∀ d : α, h.getInPort ph = BufferInPort.const (List.replicate BUFFER_LEN d) →
      (getLinkedPorts (applyOps h ops)
          ((applyOps h ops).getModule ph.module)).getD ph.buf [] =
        List.replicate BUFFER_LEN d) := by
  constructor
  · have hset : (linkValue h v ph).getInPort ph = BufferInPort.withConstant v :=
      getInPort_setBufferIn_self h ph _ hv
    have hframe := getInPort_applyOps_frame ops (linkValue h v ph) ph hops
    have hv1 : validIn (linkValue h v ph) ph := by
      obtain ⟨a1, a2, _⟩ := applyOp_shape h (LinkOp.linkValue v ph)
      have b1 : (linkValue h v ph).modules.length = h.modules.length := a1
      have b2 : ((linkValue h v ph).getModule ph.module).bufIn.length =
          (h.getModule ph.module).bufIn.length := a2 ph.module
      exact ⟨by rw [b1]; exact hv.1, by rw [b2]; exact hv.2⟩
    have hv2 : validIn (applyOps (linkValue h v ph) ops) ph := by
      obtain ⟨b1, b2, _⟩ := applyOps_shape ops (linkValue h v ph)
      have c1 := hv1.1
      exact ⟨by rw [b1]; omega, by rw [b2 ph.module]; exact hv1.2⟩
    exact getLinkedPorts_const _ ph hv2 _ (hframe.trans hset)
  · intro d hd
    have hframe := getInPort_applyOps_frame ops h ph hops
    have hv2 : validIn (applyOps h ops) ph := by
      obtain ⟨b1, b2, _⟩ := applyOps_shape ops h
      have c1 := hv.1
      exact ⟨by rw [b1]; omega, by rw [b2 ph.module]; exact hv.2⟩
    exact getLinkedPorts_const _ ph hv2 _ (hframe.trans hd)

/-- Witness for C7: the constant 3 written to port (1,0) of the concrete
host survives an unrelated link and is seen as a full block of 3s. -/
theorem constant_port_semantics_witness :
    (getLinkedPorts (applyOps (linkValue c2Host 3 ⟨1, 0⟩) [LinkOp.link ⟨0, 0⟩ ⟨1, 1⟩])
        ((applyOps (linkValue c2Host 3 ⟨1, 0⟩)
          [LinkOp.link ⟨0, 0⟩ ⟨1, 1⟩]).getModule 1)).getD 0 [] =
      List.replicate BUFFER_LEN (3 : ℚ) :=
  (constant_port_semantics c2Host ⟨1, 0⟩ 3 [LinkOp.link ⟨0, 0⟩ ⟨1, 1⟩]
    (by decide) (by decide)).1

/-! ### C3: the bidirectional subscriber index -/

/-- Bidirectional consistency: an in-port is linked to out-port `o` exactly
when `o`'s `dependents` list contains its handle, and then it contains it
exactly once; dangling or stale entries are excluded because the count of
every handle not linked here (including invalid handles, whose lookup is
`none`) is zero. -/
def subsInv {α : Type} [DecidableEq α] (h : Host α) : Prop :=
  ∀ om, om < h.modules.length → ∀ oi, oi < (h.getModule om).bufOut.length →
    ∀ q : MBH, (h.getOutPort ⟨om, oi⟩).dependents.count q =
      (if h.getInPortOpt q = some (BufferInPort.outBuffer ⟨om, oi⟩) then 1 else 0)

lemma getElem?_eq_getD {β : Type} :
    ∀ (l : List β) (i : Nat) (d : β),
      l[i]? = if i < l.length then some (l.getD i d) else none := by
  intro l
  induction l with
  | nil => intro i d; simp
  | cons a as ih =>
      intro i d
      cases i with
      | zero => simp
      | succ i' =>
          rw [List.getElem?_cons_succ, ih i' d]
          by_cases hi : i' < as.length
          · rw [if_pos hi, if_pos (by simpa using Nat.succ_lt_succ hi)]
            rfl
          · rw [if_neg hi, if_neg (by simpa using fun hc => hi (Nat.lt_of_succ_lt_succ hc))]

lemma getInPortOpt_eq {α : Type} (h : Host α) (q : MBH) :
    h.getInPortOpt q =
      if q.module < h.modules.length ∧ q.buf < (h.getModule q.module).bufIn.length
      then some (h.getInPort q) else none := by
  unfold Host.getInPortOpt Host.getInPort Host.getModule
  rw [getElem?_eq_getD h.modules q.module emptyModule]
  by_cases h1 : q.module < h.modules.length
  · rw [if_pos h1]
    show (h.modules.getD q.module emptyModule).bufIn[q.buf]? = _
    rw [getElem?_eq_getD _ q.buf (BufferInPort.const [])]
    by_cases h2 : q.buf < (h.modules.getD q.module emptyModule).bufIn.length
    · rw [if_pos h2, if_pos ⟨h1, h2⟩]
    · rw [if_neg h2, if_neg (by tauto)]
  · rw [if_neg h1, if_neg (by tauto)]
    rfl

lemma getInPortOpt_valid {α : Type} (h : Host α) (q : MBH) (hq : validIn h q) :
    h.getInPortOpt q = some (h.getInPort q) := by
  rw [getInPortOpt_eq]
  exact if_pos hq

lemma getInPortOpt_setBufferIn {α : Type} (h : Host α) (ph : MBH)
    (new : BufferInPort α) (hv : validIn h ph) (q : MBH) :
    (setBufferIn h ph new).getInPortOpt q =
      if q = ph then some new else h.getInPortOpt q := by
  obtain ⟨_, _, _, hlen⟩ := setBufferIn_getModule h ph new q.module
  have hbl : ((setBufferIn h ph new).getModule q.module).bufIn.length =
      (h.getModule q.module).bufIn.length := by
    obtain ⟨_, hbufIn, _, _⟩ := setBufferIn_getModule h ph new q.module
    rw [hbufIn]
    by_cases hc : ph.module = q.module ∧ ph.module < h.modules.length
    · rw [if_pos hc]; exact List.length_set _ _ _
    · rw [if_neg hc]
  rw [getInPortOpt_eq, getInPortOpt_eq, hlen, hbl]
  by_cases hq : q = ph
  · subst hq
    have hL : (if q.module < h.modules.length ∧
          q.buf < (h.getModule q.module).bufIn.length then
        some ((setBufferIn h q new).getInPort q) else none) =
        some ((setBufferIn h q new).getInPort q) := if_pos hv
    rw [hL, getInPort_setBufferIn_self h q new hv, if_pos rfl]
  · rw [getInPort_setBufferIn_ne h ph new q hq, if_neg hq]

lemma validOut_modifyOutPort {α : Type} (h : Host α) (p : MBH)
    (f : BufferOutPort α → BufferOutPort α) (q : MBH) :
    validOut (modifyOutPort h p f) q ↔ validOut h q := by
  obtain ⟨_, _, h3, h4⟩ := modifyOutPort_preserves h p f q.module
  unfold validOut
  rw [h3, h4]

lemma getOutPort_modifyModule_bufOut {α : Type} (h : Host α) (i : Nat)
    (f : ModuleSt α → ModuleSt α) (hpres : ∀ m, (f m).bufOut = m.bufOut) (o : MBH) :
    (modifyModule h i f).getOutPort o = h.getOutPort o := by
  unfold Host.getOutPort
  rw [show (modifyModule h i f).getModule o.module =
      if i = o.module ∧ i < h.modules.length then f (h.getModule i)
      else h.getModule o.module from getModule_modifyModule h i f o.module]
  by_cases hc : i = o.module ∧ i < h.modules.length
  · rw [if_pos hc, hpres]
    obtain ⟨rfl, _⟩ := hc
    rfl
  · rw [if_neg hc]

lemma validOut_modifyModule_bufOut {α : Type} (h : Host α) (i : Nat)
    (f : ModuleSt α → ModuleSt α) (hpres : ∀ m, (f m).bufOut = m.bufOut) (q : MBH) :
    validOut (modifyModule h i f) q ↔ validOut h q := by
  unfold validOut
  rw [modifyModule_length]
  rw [show (modifyModule h i f).getModule q.module =
      if i = q.module ∧ i < h.modules.length then f (h.getModule i)
      else h.getModule q.module from getModule_modifyModule h i f q.module]
  by_cases hc : i = q.module ∧ i < h.modules.length
  · rw [if_pos hc, hpres]
    obtain ⟨rfl, _⟩ := hc
    exact Iff.rfl
  · rw [if_neg hc]

lemma getOutPort_modifyOutPort_self {α : Type} (h : Host α) (p : MBH)
    (f : BufferOutPort α → BufferOutPort α) (hp : validOut h p) :
    (modifyOutPort h p f).getOutPort p = f (h.getOutPort p) := by
  unfold modifyOutPort Host.getOutPort
  rw [getModule_modifyModule, if_pos ⟨rfl, hp.1⟩]
  exact getD_set_self _ _ hp.2 _ _

lemma getOutPort_modifyOutPort_ne {α : Type} (h : Host α) (p : MBH)
    (f : BufferOutPort α → BufferOutPort α) (o : MBH) (hne : p ≠ o) :
    (modifyOutPort h p f).getOutPort o = h.getOutPort o := by
  unfold modifyOutPort Host.getOutPort
  rw [getModule_modifyModule]
  by_cases hc : p.module = o.module ∧ p.module < h.modules.length
  · rw [if_pos hc]
    obtain ⟨hm, _⟩ := hc
    have hb : p.buf ≠ o.buf := by
      intro hbb
      apply hne
      cases p
      cases o
      simp only at hm hbb
      simp [hm, hbb]
    rw [hm]
    exact getD_set_ne _ p.buf o.buf hb _ _
  · rw [if_neg hc]

lemma setBufferIn_dependents {α : Type} (h : Host α) (ph : MBH) (new : BufferInPort α)
    (o : MBH) (ho : validOut h o) :
    ((setBufferIn h ph new).getOutPort o).dependents =
      (if new.linkTarget = some o then
        (if (h.getInPort ph).linkTarget = some o then
          ((h.getOutPort o).dependents.filter (fun d => decide (d ≠ ph))) ++ [ph]
         else (h.getOutPort o).dependents ++ [ph])
       else
        (if (h.getInPort ph).linkTarget = some o then
          (h.getOutPort o).dependents.filter (fun d => decide (d ≠ ph))
         else (h.getOutPort o).dependents)) := by
  have hpres : ∀ m : ModuleSt α,
      (({ m with
        numDependencies :=
          match h.getInPort ph, new with
          | BufferInPort.outBuffer _, BufferInPort.const _ => m.numDependencies - 1
          | BufferInPort.const _, BufferInPort.outBuffer _ => m.numDependencies + 1
          | _, _ => m.numDependencies,
        bufIn := m.bufIn.set ph.buf new } : ModuleSt α)).bufOut = m.bufOut :=
    fun m => rfl
  simp only [setBufferIn]
  cases hold : (h.getInPort ph).linkTarget with
  | none =>
      cases hnewt : new.linkTarget with
      | none =>
          rw [if_neg (by simp), if_neg (by simp)]
          rw [getOutPort_modifyModule_bufOut h ph.module _ hpres o]
      | some out =>
          by_cases hoo : out = o
          · subst hoo
            rw [if_pos rfl, if_neg (by simp)]
            have hv1 : validOut (modifyModule h ph.module _) out :=
              (validOut_modifyModule_bufOut h ph.module _ hpres out).mpr ho
            rw [getOutPort_modifyOutPort_self _ out _ hv1,
              getOutPort_modifyModule_bufOut h ph.module _ hpres out]
          · rw [if_neg (by simp [hoo]), if_neg (by simp)]
            rw [getOutPort_modifyOutPort_ne _ out _ o hoo,
              getOutPort_modifyModule_bufOut h ph.module _ hpres o]
  | some outOld =>
      cases hnewt : new.linkTarget with
      | none =>
          by_cases hoo : outOld = o
          · subst hoo
            rw [if_neg (by simp), if_pos rfl]
            have hv1 : validOut (modifyModule h ph.module _) outOld :=
              (validOut_modifyModule_bufOut h ph.module _ hpres outOld).mpr ho
            rw [getOutPort_modifyOutPort_self _ outOld _ hv1,
              getOutPort_modifyModule_bufOut h ph.module _ hpres outOld]
          · rw [if_neg (by simp), if_neg (by simp [hoo])]
            rw [getOutPort_modifyOutPort_ne _ outOld _ o hoo,
              getOutPort_modifyModule_bufOut h ph.module _ hpres o]
      | some out =>
          by_cases hoo : out = o
          · subst hoo
            rw [if_pos rfl]
            have hv1 : validOut (modifyModule h ph.module _) out :=
              (validOut_modifyModule_bufOut h ph.module _ hpres out).mpr ho
            have hv2 : validOut (modifyOutPort (modifyModule h ph.module _) outOld
                (fun op => { op with
                  dependents := op.dependents.filter (fun d => decide (d ≠ ph)) })) out :=
              (validOut_modifyOutPort _ outOld _ out).mpr hv1
            rw [getOutPort_modifyOutPort_self _ out _ hv2]
            by_cases holdo : outOld = out
            · subst holdo
              rw [if_pos rfl]
              rw [getOutPort_modifyOutPort_self _ outOld _ hv1,
                getOutPort_modifyModule_bufOut h ph.module _ hpres outOld]
            · rw [if_neg (by simp; exact holdo)]
              rw [getOutPort_modifyOutPort_ne _ outOld _ out holdo,
                getOutPort_modifyModule_bufOut h ph.module _ hpres out]
          · rw [if_neg (by simp [hoo])]
            rw [getOutPort_modifyOutPort_ne _ out _ o hoo]
            by_cases holdo : outOld = o
            · subst holdo
              rw [if_pos rfl]
              have hv1 : validOut (modifyModule h ph.module _) outOld :=
                (validOut_modifyModule_bufOut h ph.module _ hpres outOld).mpr ho
              rw [getOutPort_modifyOutPort_self _ outOld _ hv1,
                getOutPort_modifyModule_bufOut h ph.module _ hpres outOld]
            · rw [if_neg (by simp [holdo])]
              rw [getOutPort_modifyOutPort_ne _ outOld _ o holdo,
                getOutPort_modifyModule_bufOut h ph.module _ hpres o]

lemma count_filter_ne (l : List MBH) (q ph : MBH) (hq : q ≠ ph) :
    (l.filter (fun d => decide (d ≠ ph))).count q = l.count q := by
  induction l with
  | nil => rfl
  | cons d rest ih =>
      by_cases hd : d = ph
      · rw [List.filter_cons_of_neg (by simp [hd]), ih, List.count_cons]
        have hne : (d == q) = false := by
          rw [beq_eq_false_iff_ne]
          intro hc
          exact hq (hc.symm.trans hd)
        rw [hne]
        simp
      · rw [List.filter_cons_of_pos (by simp [hd]), List.count_cons, List.count_cons, ih]

lemma count_filter_self (l : List MBH) (ph : MBH) :
    (l.filter (fun d => decide (d ≠ ph))).count ph = 0 := by
  induction l with
  | nil => rfl
  | cons d rest ih =>
      by_cases hd : d = ph
      · rw [List.filter_cons_of_neg (by simp [hd])]
        exact ih
      · rw [List.filter_cons_of_pos (by simp [hd]), List.count_cons, ih]
        have hne : (d == ph) = false := by
          rw [beq_eq_false_iff_ne]
          exact hd
        rw [hne]
        simp

lemma count_append_ph (l : List MBH) (q ph : MBH) :
    (l ++ [ph]).count q = l.count q + (if q = ph then 1 else 0) := by
  rw [List.count_append, List.count_cons, List.count_nil]
  by_cases hq : q = ph
  · subst hq
    simp
  · have hne : (ph == q) = false := by
      rw [beq_eq_false_iff_ne]
      exact fun hc => hq hc.symm
    rw [hne, if_neg hq]
    simp

lemma linkTarget_eq_some {α : Type} (p : BufferInPort α) (o : MBH) :
    p.linkTarget = some o ↔ p = BufferInPort.outBuffer o := by
  cases p with
  | outBuffer out =>
      simp [BufferInPort.linkTarget]
  | const buf =>
      simp [BufferInPort.linkTarget]

lemma subsInv_setBufferIn {α : Type} [DecidableEq α] (h : Host α) (ph : MBH)
    (new : BufferInPort α) (hv : validIn h ph)
    (hnew : ∀ o, new.linkTarget = some o → validOut h o)
    (hInv : subsInv h) : subsInv (setBufferIn h ph new) := by
  intro om hom oi hoi q
  obtain ⟨_, _, hboLen, hmLen⟩ := setBufferIn_getModule h ph new om
  rw [hmLen] at hom
  rw [hboLen] at hoi
  have hoVal : validOut h ⟨om, oi⟩ := ⟨hom, hoi⟩
  rw [setBufferIn_dependents h ph new ⟨om, oi⟩ hoVal,
    getInPortOpt_setBufferIn h ph new hv q]
  have hbase := hInv om hom oi hoi q
  by_cases hq : q = ph
  · subst hq
    rw [getInPortOpt_valid h q hv] at hbase
    rw [if_pos rfl]
    by_cases holdT : (h.getInPort q).linkTarget = some ⟨om, oi⟩ <;>
      by_cases hnt : new.linkTarget = some ⟨om, oi⟩
    · rw [if_pos hnt, if_pos holdT, count_append_ph, count_filter_self,
        (linkTarget_eq_some new ⟨om, oi⟩).mp hnt]
      simp
    · rw [if_neg hnt, if_pos holdT, count_filter_self]
      rw [if_neg (fun hc =>
        hnt ((linkTarget_eq_some new ⟨om, oi⟩).mpr (Option.some.inj hc)))]
    · rw [if_pos hnt, if_neg holdT, count_append_ph, hbase]
      rw [if_neg (fun hc =>
        holdT ((linkTarget_eq_some (h.getInPort q) ⟨om, oi⟩).mpr (Option.some.inj hc)))]
      rw [(linkTarget_eq_some new ⟨om, oi⟩).mp hnt]
      simp
    · rw [if_neg hnt, if_neg holdT, hbase]
      rw [if_neg (fun hc =>
        holdT ((linkTarget_eq_some (h.getInPort q) ⟨om, oi⟩).mpr (Option.some.inj hc)))]
      rw [if_neg (fun hc =>
        hnt ((linkTarget_eq_some new ⟨om, oi⟩).mpr (Option.some.inj hc)))]
  · rw [if_neg hq]
    by_cases holdT : (h.getInPort ph).linkTarget = some ⟨om, oi⟩ <;>
      by_cases hnt : new.linkTarget = some ⟨om, oi⟩
    · rw [if_pos hnt, if_pos holdT, count_append_ph, count_filter_ne _ _ _ hq,
        if_neg hq, hbase]
      omega
    · rw [if_neg hnt, if_pos holdT, count_filter_ne _ _ _ hq, hbase]
    · rw [if_pos hnt, if_neg holdT, count_append_ph, if_neg hq, hbase]
      omega
    · rw [if_neg hnt, if_neg holdT, hbase]

/-- C3: starting from any host whose subscriber index is bidirectionally
consistent, it stays consistent through any sequence of valid
`link`/`link_value` calls: an in-port is linked to out-port O exactly when
O's `dependents` list holds its handle, and then exactly once, with no
duplicate or stale entries. -/
theorem subscriber_index_consistency {α : Type} [DecidableEq α] (h0 : Host α)
    (ops : List (LinkOp α)) (hInv : subsInv h0)
    (hValid : ∀ op ∈ ops, op.valid h0) :
    subsInv (applyOps h0 ops) := by
  induction ops generalizing h0 with
  | nil => exact hInv
  | cons op rest ih =>
      rw [applyOps, List.foldl_cons]
      have hstep : subsInv (applyOp h0 op) := by
        have hvop := hValid op (by simp)
        cases op with
        | link bufOut bufIn =>
            exact subsInv_setBufferIn h0 bufIn _ hvop.2 (by
              intro o hlt
              have : bufOut = o := by
                simpa [BufferInPort.linkTarget] using hlt
              rw [← this]
              exact hvop.1) hInv
        | linkValue value bufIn =>
            exact subsInv_setBufferIn h0 bufIn _ hvop (by
              intro o hlt
              simp [BufferInPort.withConstant, BufferInPort.linkTarget] at hlt) hInv
      exact ih (applyOp h0 op) hstep
        (fun op' hop' => applyOp_valid_frame h0 op op' (hValid op' (by simp [hop'])))

lemma getD_mem {β : Type} :
    ∀ (l : List β) (i : Nat), i < l.length → ∀ d : β, l.getD i d ∈ l := by
  intro l
  induction l with
  | nil => intro i hi; simp at hi
  | cons a as ih =>
      intro i hi d
      cases i with
      | zero => simp
      | succ i' => exact List.mem_cons_of_mem a (ih i' (by simpa using hi) d)

lemma subsInv_empty {α : Type} [DecidableEq α] (h : Host α)
    (hdeps : ∀ m ∈ h.modules, ∀ op ∈ m.bufOut, op.dependents = [])
    (hports : ∀ m ∈ h.modules, ∀ p ∈ m.bufIn, p.isLinked = false) :
    subsInv h := by
  intro om hom oi hoi q
  have hdep : (h.getOutPort ⟨om, oi⟩).dependents = [] := by
    apply hdeps (h.getModule om) (getD_mem h.modules om hom emptyModule)
    exact getD_mem _ oi hoi _
  rw [hdep, List.count_nil]
  rw [getInPortOpt_eq]
  by_cases hvq : q.module < h.modules.length ∧ q.buf < (h.getModule q.module).bufIn.length
  · rw [if_pos hvq]
    have hmem : h.getInPort q ∈ (h.getModule q.module).bufIn :=
      getD_mem _ q.buf hvq.2 _
    have hlp := hports (h.getModule q.module)
      (getD_mem h.modules q.module hvq.1 emptyModule) _ hmem
    rw [if_neg]
    intro hc
    injection hc with hc'
    rw [hc'] at hlp
    simp [BufferInPort.isLinked] at hlp
  · rw [if_neg hvq]
    simp

/-- Witness for C3: the invariant after the concrete three-call sequence on
the two-module host. -/
theorem subscriber_index_consistency_witness :
    subsInv (applyOps c2Host c2Ops) :=
  subscriber_index_consistency c2Host c2Ops
    (subsInv_empty c2Host (by decide) (by decide)) (by decide)


/-- One module as the scheduler sees it: `numDeps` is `buf_in.num_dependencies`
and `deps` is the flattened dependents list of all its out-ports (f32 ports
first, then midi), with multiplicity, in iteration order. -/
structure SchedMod where
  numDeps : Nat
  deps : List Nat

/-- Mutable scheduler state for one pass: per-module
`num_finished_dependencies` counter and the order of `fill_buffers` calls. -/
structure SchedState where
  nfd : Nat → Nat
  log : List Nat

def mdeps (G : List SchedMod) (i : Nat) : List Nat := (G.getD i ⟨0, []⟩).deps

def mnd (G : List SchedMod) (i : Nat) : Nat := (G.getD i ⟨0, []⟩).numDeps

def bumpF (f : Nat → Nat) (i : Nat) : Nat → Nat := fun j => if j = i then f i + 1 else f j

/-- One call of `Host::process_module`: fetch_add the finished counter; return
early while the bumped count is still below `num_dependencies`; otherwise log
the `fill_buffers` call and recurse into every dependent entry in order. -/
def processModule (G : List SchedMod) : Nat → Nat → SchedState → SchedState
  | 0, _, st => st
  | fuel + 1, i, st =>
      if bumpF st.nfd i i < mnd G i then
        { nfd := bumpF st.nfd i, log := st.log }
      else
        (mdeps G i).foldl (fun acc j => processModule G fuel j acc)
          { nfd := bumpF st.nfd i, log := st.log ++ [i] }

/-- One pass of `Host::process`: reset all finished counters to zero, then call
`process_module` on each zero-dependency module in the map's iteration order
`srcs`. -/
def processPass (G : List SchedMod) (fuel : Nat) (srcs : List Nat) : SchedState :=
  srcs.foldl (fun acc i => processModule G fuel i acc) { nfd := fun _ => 0, log := [] }

def edgeSum (G : List SchedMod) (F : Nat → Nat → Nat) (j : Nat) : Nat :=
  ∑ i in Finset.range G.length, F i j

def indeg (G : List SchedMod) (j : Nat) : Nat :=
  ∑ i in Finset.range G.length, (mdeps G i).count j

def incF (F : Nat → Nat → Nat) (p j : Nat) : Nat → Nat → Nat :=
  fun a b => if a = p ∧ b = j then F p j + 1 else F a b

/-- Well-formedness of the graph: dependent handles are in range, each
module's `num_dependencies` equals its in-degree counted with multiplicity
(the `link` invariants), and `rk` is a rank function witnessing acyclicity. -/
structure SchedWF (G : List SchedMod) (rk : Nat → Nat) : Prop where
  hW1 : ∀ i, i < G.length → ∀ j ∈ mdeps G i, j < G.length
  hW2 : ∀ j, j < G.length → indeg G j = mnd G j
  hRk : ∀ i, i < G.length → ∀ j ∈ mdeps G i, rk i < rk j
  hRkB : ∀ i, i < G.length → rk i < G.length

/-- Ghost invariant tying the mutable counters to the top-call list `tc` and
the consumed-edge counts `F`. -/
structure SchedInv (G : List SchedMod) (st : SchedState) (tc : List Nat)
    (F : Nat → Nat → Nat) : Prop where
  hA : ∀ j, st.nfd j = tc.count j + edgeSum G F j
  hB : ∀ i j, F i j ≤ (mdeps G i).count j
  hC : ∀ i, i ∉ st.log → ∀ j, F i j = 0
  hD : ∀ j, j ∈ st.log ↔ (j < G.length ∧ max 1 (mnd G j) ≤ st.nfd j)
  hE : tc.Nodup ∧ ∀ j ∈ tc, j < G.length ∧ mnd G j = 0
  hN : st.log.Nodup
  hP : st.log.Pairwise (fun a b => a ∉ mdeps G b)

/-- Quiescence outside the call stack `S`: every logged module not currently
being dispatched has consumed all of its outgoing edges. -/
def schedQ (G : List SchedMod) (S : List Nat) (st : SchedState)
    (F : Nat → Nat → Nat) : Prop :=
  ∀ i ∈ st.log, i ∉ S → ∀ j, F i j = (mdeps G i).count j

lemma bumpF_self (f : Nat → Nat) (i : Nat) : bumpF f i i = f i + 1 := by
  simp [bumpF]

lemma bumpF_ne (f : Nat → Nat) {i q : Nat} (h : q ≠ i) : bumpF f i q = f q := by
  simp [bumpF, h]

lemma incF_self (F : Nat → Nat → Nat) (p j : Nat) : incF F p j p j = F p j + 1 := by
  simp [incF]

lemma incF_ne (F : Nat → Nat → Nat) {p j a b : Nat} (h : ¬(a = p ∧ b = j)) :
    incF F p j a b = F a b := by
  simp only [incF, if_neg h]

lemma count_app_one (l : List Nat) (x q : Nat) :
    (l ++ [x]).count q = l.count q + if q = x then 1 else 0 := by
  rw [List.count_append]
  by_cases h : q = x
  · subst h
    simp
  · have hx : ([x] : List Nat).count q = 0 := by
      simp [List.count_eq_zero_of_not_mem, h]
    rw [hx, if_neg h]

lemma edgeSum_incF_self (G : List SchedMod) (F : Nat → Nat → Nat) {p : Nat} (j : Nat)
    (hp : p < G.length) : edgeSum G (incF F p j) j = edgeSum G F j + 1 := by
  unfold edgeSum
  rw [Finset.sum_eq_sum_diff_singleton_add (Finset.mem_range.mpr hp),
    Finset.sum_eq_sum_diff_singleton_add (Finset.mem_range.mpr hp) (fun i => F i j)]
  have hcong : ∑ x in Finset.range G.length \ {p}, incF F p j x j =
      ∑ x in Finset.range G.length \ {p}, F x j := by
    refine Finset.sum_congr rfl ?_
    intro x hx
    have hxp : x ≠ p := by
      rcases Finset.mem_sdiff.mp hx with ⟨_, hx2⟩
      simpa using hx2
    exact incF_ne F (fun hc => hxp hc.1)
  rw [hcong, incF_self]
  omega

lemma edgeSum_incF_ne (G : List SchedMod) (F : Nat → Nat → Nat) (p j : Nat) {b : Nat}
    (hb : b ≠ j) : edgeSum G (incF F p j) b = edgeSum G F b := by
  unfold edgeSum
  refine Finset.sum_congr rfl ?_
  intro x _
  exact incF_ne F (fun hc => hb hc.2)

lemma count_le_indeg (G : List SchedMod) {p : Nat} (j : Nat) (hp : p < G.length) :
    (mdeps G p).count j ≤ indeg G j :=
  Finset.single_le_sum (f := fun i => (mdeps G i).count j)
    (fun _ _ => Nat.zero_le _) (Finset.mem_range.mpr hp)

/-- A module with an unconsumed in-edge has not been top-called, has not
reached its firing threshold, and has not fired. -/
lemma sched_unfired {G : List SchedMod} {rk : Nat → Nat} (wf : SchedWF G rk)
    {st : SchedState} {tc : List Nat} {F : Nat → Nat → Nat}
    (hInv : SchedInv G st tc F) {p j : Nat} (hpn : p < G.length)
    (hj : j ∈ mdeps G p) (hstrict : F p j < (mdeps G p).count j) :
    tc.count j = 0 ∧ st.nfd j < mnd G j ∧ j ∉ st.log := by
  have hjn : j < G.length := wf.hW1 p hpn j hj
  have hsumlt : edgeSum G F j < indeg G j :=
    Finset.sum_lt_sum (fun a _ => hInv.hB a j)
      ⟨p, Finset.mem_range.mpr hpn, hstrict⟩
  have hw2 : indeg G j = mnd G j := wf.hW2 j hjn
  have hc1 : 1 ≤ (mdeps G p).count j := List.count_pos_iff.mpr hj
  have hile : (mdeps G p).count j ≤ indeg G j := count_le_indeg G j hpn
  have htc : tc.count j = 0 := by
    by_cases hjt : j ∈ tc
    · have := (hInv.hE.2 j hjt).2
      omega
    · exact List.count_eq_zero_of_not_mem hjt
  have hA := hInv.hA j
  refine ⟨htc, by omega, fun hmem => ?_⟩
  have hge := ((hInv.hD j).mp hmem).2
  have := Nat.le_max_right 1 (mnd G j)
  omega

/-- No successor of an unfired module can have fired. -/
lemma sched_succ_clear {G : List SchedMod} {rk : Nat → Nat} (wf : SchedWF G rk)
    {st : SchedState} {tc : List Nat} {F : Nat → Nat → Nat}
    (hInv : SchedInv G st tc F) {x : Nat} (hxn : x < G.length) (hxlog : x ∉ st.log) :
    ∀ a ∈ st.log, a ∉ mdeps G x := by
  intro a ha hmem
  have hFxa : F x a < (mdeps G x).count a := by
    rw [hInv.hC x hxlog a]
    exact List.count_pos_iff.mpr hmem
  obtain ⟨_, _, halog⟩ := sched_unfired wf hInv hxn hmem hFxa
  exact halog ha

/-- Specification of one justified edge call of `process_module` at a given
fuel: the invariant and quiescence are preserved, exactly the designated edge
is consumed on the caller's row, and the log only grows. -/
def SingleStmt (fuel : Nat) : Prop :=
  ∀ (G : List SchedMod) (rk : Nat → Nat), SchedWF G rk →
  ∀ (S : List Nat) (p j : Nat) (st : SchedState) (tc : List Nat) (F : Nat → Nat → Nat),
    SchedInv G st tc F → schedQ G S st F → (∀ s ∈ S, s ∈ st.log) →
    p ∈ S → j ∈ mdeps G p → F p j < (mdeps G p).count j →
    G.length - rk j ≤ fuel →
    ∃ F2 L,
      (processModule G fuel j st).log = st.log ++ L ∧
      SchedInv G (processModule G fuel j st) tc F2 ∧
      schedQ G S (processModule G fuel j st) F2 ∧
      F2 p j = F p j + 1 ∧
      (∀ a ∈ S, ∀ b, ¬(a = p ∧ b = j) → F2 a b = F a b)

/-- Specification of the dispatch loop over the remaining dependents `rest` of
an already-logged module `i` whose consumed prefix is `done`. -/
def FoldStmt (fuel : Nat) : Prop :=
  ∀ (G : List SchedMod) (rk : Nat → Nat), SchedWF G rk →
  ∀ (S : List Nat) (i : Nat) (rest : List Nat),
  ∀ (done : List Nat) (st : SchedState) (tc : List Nat) (F : Nat → Nat → Nat),
    SchedInv G st tc F → schedQ G S st F → (∀ s ∈ S, s ∈ st.log) →
    i ∈ S → mdeps G i = done ++ rest → (∀ q, F i q = done.count q) →
    (∀ k ∈ rest, G.length - rk k ≤ fuel) →
    ∃ F2 L,
      (rest.foldl (fun acc j => processModule G fuel j acc) st).log = st.log ++ L ∧
      SchedInv G (rest.foldl (fun acc j => processModule G fuel j acc) st) tc F2 ∧
      schedQ G S (rest.foldl (fun acc j => processModule G fuel j acc) st) F2 ∧
      (∀ q, F2 i q = (mdeps G i).count q) ∧
      (∀ a ∈ S, a ≠ i → ∀ b, F2 a b = F a b)

lemma schedFold (fuel : Nat) (hs : SingleStmt fuel) : FoldStmt fuel := by
  intro G rk wf S i rest
  induction rest with
  | nil =>
      intro done st tc F hInv hQ hSub hiS hdeps hrow _
      refine ⟨F, [], by simp, hInv, hQ, ?_, fun a _ _ b => rfl⟩
      intro q
      rw [hdeps, List.append_nil]
      exact hrow q
  | cons j rest ih =>
      intro done st tc F hInv hQ hSub hiS hdeps hrow hfuel
      rw [List.foldl_cons]
      have hjmem : j ∈ mdeps G i := by
        rw [hdeps]; simp
      have hstrict : F i j < (mdeps G i).count j := by
        rw [hrow j, hdeps, List.count_append, List.count_cons]
        simp
      obtain ⟨F1, L1, hlog1, hInv1, hQ1, hFij, hFpres⟩ :=
        hs G rk wf S i j st tc F hInv hQ hSub hiS hjmem hstrict (hfuel j (by simp))
      have hrow1 : ∀ q, F1 i q = (done ++ [j]).count q := by
        intro q
        rw [count_app_one]
        by_cases hq : q = j
        · subst hq
          rw [hFij, hrow q, if_pos rfl]
        · rw [hFpres i hiS q (fun hc => hq hc.2), hrow q, if_neg hq]
          omega
      have hSub1 : ∀ s ∈ S, s ∈ (processModule G fuel j st).log := by
        intro s hsS
        rw [hlog1]
        exact List.mem_append_left _ (hSub s hsS)
      obtain ⟨F2, L2, hlog2, hInv2, hQ2, hrow2, hpres2⟩ :=
        ih (done ++ [j]) (processModule G fuel j st) tc F1 hInv1 hQ1 hSub1 hiS
          (by rw [hdeps]; simp) hrow1 (fun k hk => hfuel k (by simp [hk]))
      refine ⟨F2, L1 ++ L2, ?_, hInv2, hQ2, hrow2, ?_⟩
      · rw [hlog2, hlog1, List.append_assoc]
      · intro a ha hai b
        rw [hpres2 a ha hai b, hFpres a ha b (fun hc => hai hc.1)]

lemma schedSingle : ∀ fuel, SingleStmt fuel := by
  intro fuel
  induction fuel with
  | zero =>
      intro G rk wf S p j st tc F hInv hQ hSub hpS hj hstrict hfb
      exfalso
      have hpn : p < G.length := ((hInv.hD p).mp (hSub p hpS)).1
      have hjn : j < G.length := wf.hW1 p hpn j hj
      have := wf.hRkB j hjn
      omega
  | succ fuel ih =>
      intro G rk wf S p j st tc F hInv hQ hSub hpS hj hstrict hfb
      have hpn : p < G.length := ((hInv.hD p).mp (hSub p hpS)).1
      have hjn : j < G.length := wf.hW1 p hpn j hj
      obtain ⟨htc0, hnfdlt, hjlog⟩ := sched_unfired wf hInv hpn hj hstrict
      have hpj : p ≠ j := fun hc => hjlog (hc ▸ hSub p hpS)
      have heq : processModule G (fuel + 1) j st =
          if bumpF st.nfd j j < mnd G j then
            { nfd := bumpF st.nfd j, log := st.log }
          else
            (mdeps G j).foldl (fun acc k => processModule G fuel k acc)
              { nfd := bumpF st.nfd j, log := st.log ++ [j] } := rfl
      have hB1 : ∀ a b, incF F p j a b ≤ (mdeps G a).count b := by
        intro a b
        by_cases hab : a = p ∧ b = j
        · obtain ⟨ha, hb⟩ := hab
          subst ha; subst hb
          rw [incF_self]
          omega
        · rw [incF_ne F hab]
          exact hInv.hB a b
      by_cases hfire : bumpF st.nfd j j < mnd G j
      · rw [heq, if_pos hfire]
        refine ⟨incF F p j, [], by simp, ?_, ?_, incF_self F p j, ?_⟩
        · constructor
          · intro q
            by_cases hq : q = j
            · subst hq
              show bumpF st.nfd q q = _
              rw [bumpF_self, edgeSum_incF_self G F q hpn, hInv.hA q]
              omega
            · show bumpF st.nfd j q = _
              rw [bumpF_ne st.nfd hq, edgeSum_incF_ne G F p j hq, hInv.hA q]
          · exact hB1
          · intro a halog b
            have hap : a ≠ p := fun hc => halog (hc ▸ hSub p hpS)
            rw [incF_ne F (fun hc => hap hc.1)]
            exact hInv.hC a halog b
          · intro q
            by_cases hq : q = j
            · subst hq
              show q ∈ st.log ↔ _
              refine iff_of_false hjlog ?_
              rintro ⟨_, hle⟩
              have hmr := Nat.le_max_right 1 (mnd G q)
              have hb := bumpF_self st.nfd q
              have hle2 : max 1 (mnd G q) ≤ bumpF st.nfd q q := hle
              omega
            · show q ∈ st.log ↔ _
              rw [show ({ nfd := bumpF st.nfd j, log := st.log } : SchedState).nfd q =
                st.nfd q from bumpF_ne st.nfd hq]
              exact hInv.hD q
          · exact hInv.hE
          · exact hInv.hN
          · exact hInv.hP
        · intro a ha hanS b
          have hap : a ≠ p := fun hc => hanS (hc ▸ hpS)
          rw [incF_ne F (fun hc => hap hc.1)]
          exact hQ a ha hanS b
        · intro a _ b hab
          exact incF_ne F hab
      · rw [heq, if_neg hfire]
        have hmndpos : 1 ≤ mnd G j := by
          have h1 : 1 ≤ (mdeps G p).count j := List.count_pos_iff.mpr hj
          have h2 := count_le_indeg G j hpn
          have h3 := wf.hW2 j hjn
          omega
        have hbs := bumpF_self st.nfd j
        have hA := hInv.hA j
        have hw2 := wf.hW2 j hjn
        have hesum : edgeSum G (incF F p j) j = edgeSum G F j + 1 :=
          edgeSum_incF_self G F j hpn
        have hEdgeFull : edgeSum G (incF F p j) j = indeg G j := by omega
        have hColFull : ∀ a, a < G.length → incF F p j a j = (mdeps G a).count j := by
          unfold edgeSum indeg at hEdgeFull
          have hall := (Finset.sum_eq_sum_iff_of_le (fun a _ => hB1 a j)).mp hEdgeFull
          intro a ha
          exact hall a (Finset.mem_range.mpr ha)
        have hrowz : ∀ q, incF F p j j q = 0 := by
          intro q
          rw [incF_ne F (fun hc => hpj hc.1.symm)]
          exact hInv.hC j hjlog q
        have hInv1 : SchedInv G { nfd := bumpF st.nfd j, log := st.log ++ [j] } tc
            (incF F p j) := by
          constructor
          · intro q
            by_cases hq : q = j
            · subst hq
              show bumpF st.nfd q q = _
              omega
            · show bumpF st.nfd j q = _
              rw [bumpF_ne st.nfd hq, edgeSum_incF_ne G F p j hq, hInv.hA q]
          · exact hB1
          · intro a halog b
            have ha1 : a ∉ st.log := fun hc => halog (List.mem_append_left _ hc)
            have hap : a ≠ p := fun hc => ha1 (hc ▸ hSub p hpS)
            rw [incF_ne F (fun hc => hap hc.1)]
            exact hInv.hC a ha1 b
          · intro q
            by_cases hq : q = j
            · subst hq
              refine iff_of_true (by simp) ⟨hjn, ?_⟩
              show max 1 (mnd G q) ≤ bumpF st.nfd q q
              rw [max_eq_right hmndpos]
              omega
            · have hmem : q ∈ st.log ++ [j] ↔ q ∈ st.log := by simp [hq]
              show q ∈ st.log ++ [j] ↔ _ ∧ max 1 (mnd G q) ≤ bumpF st.nfd j q
              rw [hmem, bumpF_ne st.nfd hq]
              exact hInv.hD q
          · exact hInv.hE
          · rw [List.nodup_append]
            refine ⟨hInv.hN, List.nodup_singleton j, ?_⟩
            intro a ha hb
            rw [List.mem_singleton] at hb
            exact hjlog (hb ▸ ha)
          · rw [List.pairwise_append]
            refine ⟨hInv.hP, List.pairwise_singleton _ _, ?_⟩
            intro a ha b hb
            rw [List.mem_singleton] at hb
            subst hb
            exact sched_succ_clear wf hInv hjn hjlog a ha
        have hQ1 : schedQ G (S ++ [j]) { nfd := bumpF st.nfd j, log := st.log ++ [j] }
            (incF F p j) := by
          intro a ha hanot b
          have haj : a ≠ j := fun hc => hanot (List.mem_append_right _ (by simp [hc]))
          have hanS : a ∉ S := fun hc => hanot (List.mem_append_left _ hc)
          have halog : a ∈ st.log := by
            rcases List.mem_append.mp ha with h | h
            · exact h
            · exact absurd (List.mem_singleton.mp h) haj
          have hap : a ≠ p := fun hc => hanS (hc ▸ hpS)
          rw [incF_ne F (fun hc => hap hc.1)]
          exact hQ a halog hanS b
        have hSub1 : ∀ s ∈ S ++ [j], s ∈ st.log ++ [j] := by
          intro s hsS
          rcases List.mem_append.mp hsS with h | h
          · exact List.mem_append_left _ (hSub s h)
          · exact List.mem_append_right _ h
        have hfuel2 : ∀ k ∈ mdeps G j, G.length - rk k ≤ fuel := by
          intro k hk
          have h1 := wf.hRk j hjn k hk
          omega
        obtain ⟨F2, L2, hlog2, hInv2, hQ2, hrow2, hpres2⟩ :=
          schedFold fuel ih G rk wf (S ++ [j]) j (mdeps G j) []
            { nfd := bumpF st.nfd j, log := st.log ++ [j] } tc (incF F p j)
            hInv1 hQ1 hSub1 (by simp) (by simp) (fun q => by rw [hrowz q]; rfl) hfuel2
        refine ⟨F2, j :: L2, ?_, hInv2, ?_, ?_, ?_⟩
        · rw [hlog2]
          show (st.log ++ [j]) ++ L2 = st.log ++ (j :: L2)
          rw [List.append_assoc]
          rfl
        · intro a ha hanS b
          by_cases haj : a = j
          · subst haj
            exact hrow2 b
          · refine hQ2 a ha ?_ b
            intro hc
            rcases List.mem_append.mp hc with h | h
            · exact hanS h
            · exact haj (List.mem_singleton.mp h)
        · rw [hpres2 p (List.mem_append_left _ hpS) hpj j, incF_self]
        · intro a haS b hab
          have haj : a ≠ j := fun hc => hjlog (hc ▸ hSub a haS)
          rw [hpres2 a (List.mem_append_left _ haS) haj b, incF_ne F hab]

/-- A top-level call of `process_module` on a zero-dependency module from a
quiescent state fires it immediately, dispatches its whole subtree, and
returns to a quiescent state with the module recorded as top-called. -/
lemma sched_top {G : List SchedMod} {rk : Nat → Nat} (wf : SchedWF G rk)
    {st : SchedState} {tc : List Nat} {F : Nat → Nat → Nat} {i fuel : Nat}
    (hInv : SchedInv G st tc F) (hQ : schedQ G [] st F)
    (hin : i < G.length) (hnd : mnd G i = 0) (hitc : i ∉ tc)
    (hfuel : G.length ≤ fuel) :
    ∃ F2 L, (processModule G fuel i st).log = st.log ++ L ∧
      SchedInv G (processModule G fuel i st) (tc ++ [i]) F2 ∧
      schedQ G [] (processModule G fuel i st) F2 := by
  obtain ⟨fuel1, rfl⟩ : ∃ f1, fuel = f1 + 1 := ⟨fuel - 1, by omega⟩
  have hle : edgeSum G F i ≤ indeg G i :=
    Finset.sum_le_sum (fun a _ => hInv.hB a i)
  have hw2 := wf.hW2 i hin
  have htci : tc.count i = 0 := List.count_eq_zero_of_not_mem hitc
  have hAi := hInv.hA i
  have hnfdi : st.nfd i = 0 := by omega
  have hesumi : edgeSum G F i = 0 := by omega
  have hilog : i ∉ st.log := by
    intro h
    have hge := ((hInv.hD i).mp h).2
    have := Nat.le_max_left 1 (mnd G i)
    omega
  have heq : processModule G (fuel1 + 1) i st =
      if bumpF st.nfd i i < mnd G i then
        { nfd := bumpF st.nfd i, log := st.log }
      else
        (mdeps G i).foldl (fun acc k => processModule G fuel1 k acc)
          { nfd := bumpF st.nfd i, log := st.log ++ [i] } := rfl
  have hfire : ¬ bumpF st.nfd i i < mnd G i := by
    rw [hnd]
    omega
  rw [heq, if_neg hfire]
  have hbs := bumpF_self st.nfd i
  have hInv1 : SchedInv G { nfd := bumpF st.nfd i, log := st.log ++ [i] }
      (tc ++ [i]) F := by
    constructor
    · intro q
      by_cases hq : q = i
      · subst hq
        show bumpF st.nfd q q = _
        rw [count_app_one, if_pos rfl]
        omega
      · show bumpF st.nfd i q = _
        rw [bumpF_ne st.nfd hq, count_app_one, if_neg hq, hInv.hA q]
        omega
    · exact hInv.hB
    · intro a halog b
      have ha1 : a ∉ st.log := fun hc => halog (List.mem_append_left _ hc)
      exact hInv.hC a ha1 b
    · intro q
      by_cases hq : q = i
      · subst hq
        refine iff_of_true (by simp) ⟨hin, ?_⟩
        show max 1 (mnd G q) ≤ bumpF st.nfd q q
        rw [hnd]
        omega
      · have hmem : q ∈ st.log ++ [i] ↔ q ∈ st.log := by simp [hq]
        show q ∈ st.log ++ [i] ↔ _ ∧ max 1 (mnd G q) ≤ bumpF st.nfd i q
        rw [hmem, bumpF_ne st.nfd hq]
        exact hInv.hD q
    · constructor
      · rw [List.nodup_append]
        refine ⟨hInv.hE.1, List.nodup_singleton i, ?_⟩
        intro a ha hb
        rw [List.mem_singleton] at hb
        exact hitc (hb ▸ ha)
      · intro q hqt
        rcases List.mem_append.mp hqt with h | h
        · exact hInv.hE.2 q h
        · rw [List.mem_singleton] at h
          subst h
          exact ⟨hin, hnd⟩
    · rw [List.nodup_append]
      refine ⟨hInv.hN, List.nodup_singleton i, ?_⟩
      intro a ha hb
      rw [List.mem_singleton] at hb
      exact hilog (hb ▸ ha)
    · rw [List.pairwise_append]
      refine ⟨hInv.hP, List.pairwise_singleton _ _, ?_⟩
      intro a ha b hb
      rw [List.mem_singleton] at hb
      subst hb
      exact sched_succ_clear wf hInv hin hilog a ha
  have hQ1 : schedQ G [i] { nfd := bumpF st.nfd i, log := st.log ++ [i] } F := by
    intro a ha hanot b
    have hai : a ≠ i := fun hc => hanot (by simp [hc])
    have halog : a ∈ st.log := by
      rcases List.mem_append.mp ha with h | h
      · exact h
      · exact absurd (List.mem_singleton.mp h) hai
    exact hQ a halog (List.not_mem_nil a) b
  have hSub1 : ∀ s ∈ [i], s ∈ st.log ++ [i] := by
    intro s hsS
    rw [List.mem_singleton] at hsS
    exact List.mem_append_right _ (by simp [hsS])
  have hrowz : ∀ q, F i q = 0 := hInv.hC i hilog
  have hfuel2 : ∀ k ∈ mdeps G i, G.length - rk k ≤ fuel1 := by
    intro k hk
    have h1 := wf.hRk i hin k hk
    omega
  obtain ⟨F2, L2, hlog2, hInv2, hQ2, hrow2, _⟩ :=
    schedFold fuel1 (schedSingle fuel1) G rk wf [i] i (mdeps G i) []
      { nfd := bumpF st.nfd i, log := st.log ++ [i] } (tc ++ [i]) F
      hInv1 hQ1 hSub1 (by simp) (by simp) (fun q => by rw [hrowz q]; rfl) hfuel2
  refine ⟨F2, i :: L2, ?_, hInv2, ?_⟩
  · rw [hlog2]
    show (st.log ++ [i]) ++ L2 = st.log ++ (i :: L2)
    rw [List.append_assoc]
    rfl
  · intro a ha _ b
    by_cases hai : a = i
    · subst hai
      exact hrow2 b
    · refine hQ2 a ha ?_ b
      intro hc
      exact hai (List.mem_singleton.mp hc)

/-- Folding the whole pending source list through `process_module` from a
quiescent invariant state reaches a quiescent invariant state whose top-call
list has absorbed the pending list. -/
lemma sched_pass {G : List SchedMod} {rk : Nat → Nat} (wf : SchedWF G rk)
    (fuel : Nat) (hfuel : G.length ≤ fuel) :
    ∀ (pend : List Nat) (st : SchedState) (tc : List Nat) (F : Nat → Nat → Nat),
      SchedInv G st tc F → schedQ G [] st F →
      pend.Nodup → (∀ k ∈ pend, k < G.length ∧ mnd G k = 0 ∧ k ∉ tc) →
      ∃ F2 L,
        (pend.foldl (fun acc i => processModule G fuel i acc) st).log = st.log ++ L ∧
        SchedInv G (pend.foldl (fun acc i => processModule G fuel i acc) st)
          (tc ++ pend) F2 ∧
        schedQ G [] (pend.foldl (fun acc i => processModule G fuel i acc) st) F2 := by
  intro pend
  induction pend with
  | nil =>
      intro st tc F hInv hQ _ _
      refine ⟨F, [], by simp, ?_, hQ⟩
      rw [List.append_nil]
      exact hInv
  | cons k rest ih =>
      intro st tc F hInv hQ hnd hmem
      rw [List.foldl_cons]
      obtain ⟨hkn, hknd, hktc⟩ := hmem k (by simp)
      obtain ⟨F1, L1, hlog1, hInv1, hQ1⟩ := sched_top wf hInv hQ hkn hknd hktc hfuel
      have hndr : rest.Nodup := (List.nodup_cons.mp hnd).2
      have hknr : k ∉ rest := (List.nodup_cons.mp hnd).1
      obtain ⟨F2, L2, hlog2, hInv2, hQ2⟩ :=
        ih (processModule G fuel k st) (tc ++ [k]) F1 hInv1 hQ1 hndr
          (by
            intro q hq
            obtain ⟨h1, h2, h3⟩ := hmem q (List.mem_cons_of_mem k hq)
            refine ⟨h1, h2, ?_⟩
            intro hc
            rcases List.mem_append.mp hc with h | h
            · exact h3 h
            · rw [List.mem_singleton] at h
              exact hknr (h ▸ hq))
      refine ⟨F2, L1 ++ L2, ?_, ?_, hQ2⟩
      · rw [hlog2, hlog1, List.append_assoc]
      · have hassoc : (tc ++ [k]) ++ rest = tc ++ (k :: rest) := by simp
        rwa [hassoc] at hInv2

/-- In a quiescent final state where every source was top-called, every module
has fired: downward induction on the rank function. -/
lemma sched_complete {G : List SchedMod} {rk : Nat → Nat} (wf : SchedWF G rk)
    {st : SchedState} {tc : List Nat} {F : Nat → Nat → Nat}
    (hInv : SchedInv G st tc F) (hQ : schedQ G [] st F)
    (htc : ∀ j, j < G.length → mnd G j = 0 → j ∈ tc) :
    ∀ j, j < G.length → j ∈ st.log := by
  suffices h : ∀ r j, j < G.length → rk j < r → j ∈ st.log by
    intro j hj
    exact h (rk j + 1) j hj (by omega)
  intro r
  induction r with
  | zero =>
      intro j _ h
      omega
  | succ r ih =>
      intro j hjn hrk
      by_cases hr : rk j < r
      · exact ih j hjn hr
      · have hfull : ∀ a, a < G.length → F a j = (mdeps G a).count j := by
          intro a han
          by_cases hmem : j ∈ mdeps G a
          · have hal : a ∈ st.log := by
              refine ih a han ?_
              have := wf.hRk a han j hmem
              omega
            exact hQ a hal (List.not_mem_nil a) j
          · have h0 : (mdeps G a).count j = 0 := List.count_eq_zero_of_not_mem hmem
            have := hInv.hB a j
            omega
        have hsum : edgeSum G F j = indeg G j := by
          unfold edgeSum indeg
          refine Finset.sum_congr rfl ?_
          intro a ha
          exact hfull a (Finset.mem_range.mp ha)
        have hA := hInv.hA j
        have hw2 := wf.hW2 j hjn
        rw [hInv.hD j]
        refine ⟨hjn, ?_⟩
        by_cases hnd : mnd G j = 0
        · have hjt : j ∈ tc := htc j hjn hnd
          have hcnt : 0 < tc.count j := List.count_pos_iff.mpr hjt
          rw [hnd]
          omega
        · have h1 : 1 ≤ mnd G j := Nat.one_le_iff_ne_zero.mpr hnd
          rw [max_eq_right h1]
          omega

/-- C1: one scheduler pass over a consistent DAG-shaped graph logs every
module's `fill_buffers` call exactly once, and whenever module `j` is a
dependent of module `i`, module `i` is logged strictly before `j`: the log is
a topological order of the dependency graph. -/
theorem scheduler_topological {G : List SchedMod} (rk : Nat → Nat)
    (wf : SchedWF G rk) (srcs : List Nat) (fuel : Nat) (hfuel : G.length ≤ fuel)
    (hsN : srcs.Nodup) (hsLt : ∀ i ∈ srcs, i < G.length)
    (hsMem : ∀ i, i < G.length → (i ∈ srcs ↔ mnd G i = 0)) :
    (∀ j, j < G.length → (processPass G fuel srcs).log.count j = 1) ∧
    (∀ i j, i < G.length → j ∈ mdeps G i →
      ∃ l1 l2, (processPass G fuel srcs).log = l1 ++ i :: l2 ∧ j ∈ l2) := by
  have hInv0 : SchedInv G { nfd := fun _ => 0, log := [] } [] (fun _ _ => 0) := by
    constructor
    · intro j
      show 0 = List.count j [] + edgeSum G (fun _ _ => 0) j
      unfold edgeSum
      simp
    · intro i j
      exact Nat.zero_le _
    · intro i _ j
      rfl
    · intro j
      refine iff_of_false (List.not_mem_nil j) ?_
      rintro ⟨_, hle⟩
      have : max 1 (mnd G j) ≤ 0 := hle
      have := Nat.le_max_left 1 (mnd G j)
      omega
    · exact ⟨List.nodup_nil, fun j hj => absurd hj (List.not_mem_nil j)⟩
    · exact List.nodup_nil
    · exact List.Pairwise.nil
  have hQ0 : schedQ G [] { nfd := fun _ => 0, log := [] } (fun _ _ => 0) :=
    fun a ha => absurd ha (List.not_mem_nil a)
  obtain ⟨F, L, hlog, hInv, hQ⟩ :=
    sched_pass wf fuel hfuel srcs { nfd := fun _ => 0, log := [] } [] (fun _ _ => 0)
      hInv0 hQ0 hsN
      (fun k hk => ⟨hsLt k hk, (hsMem k (hsLt k hk)).mp hk, List.not_mem_nil k⟩)
  rw [List.nil_append] at hInv
  have hcomp : ∀ j, j < G.length → j ∈ (processPass G fuel srcs).log :=
    sched_complete wf hInv hQ (fun j hj hnd => (hsMem j hj).mpr hnd)
  constructor
  · intro j hj
    have h1 : 0 < (processPass G fuel srcs).log.count j :=
      List.count_pos_iff.mpr (hcomp j hj)
    have h2 : (processPass G fuel srcs).log.count j ≤ 1 :=
      List.nodup_iff_count_le_one.mp hInv.hN j
    omega
  · intro i j hin hj
    have hjn : j < G.length := wf.hW1 i hin j hj
    have hiL : i ∈ (processPass G fuel srcs).log := hcomp i hin
    have hjL : j ∈ (processPass G fuel srcs).log := hcomp j hjn
    obtain ⟨l1, l2, hsplit⟩ := List.append_of_mem hiL
    refine ⟨l1, l2, hsplit, ?_⟩
    have hij : i ≠ j := by
      intro heq
      have h1 := wf.hRk i hin j hj
      rw [heq] at h1
      omega
    have hP : (processPass G fuel srcs).log.Pairwise (fun a b => a ∉ mdeps G b) :=
      hInv.hP
    rw [hsplit] at hP hjL
    rw [List.pairwise_append] at hP
    rcases List.mem_append.mp hjL with hj1 | hj2
    · exact absurd hj (hP.2.2 j hj1 i (List.mem_cons_self i l2))
    · rcases List.mem_cons.mp hj2 with h | h
      · exact absurd h.symm hij
      · exact h

/-- Concrete diamond graph for the C1 witness: module 0 feeds modules 1 and 2,
which both feed module 3. -/
def diamondG : List SchedMod := [⟨0, [1, 2]⟩, ⟨1, [3]⟩, ⟨1, [3]⟩, ⟨2, []⟩]

/-- Witness for C1 on the diamond graph with fuel 4 and source list [0]. -/
theorem scheduler_topological_witness :
    (∀ j, j < diamondG.length → (processPass diamondG 4 [0]).log.count j = 1) ∧
    (∀ i j, i < diamondG.length → j ∈ mdeps diamondG i →
      ∃ l1 l2, (processPass diamondG 4 [0]).log = l1 ++ i :: l2 ∧ j ∈ l2) :=
  scheduler_topological (fun i => i)
    ⟨by decide, by decide, by decide, by decide⟩ [0] 4 (by decide) (by decide)
    (by decide) (by decide)


end Rustsynth
